import Mathlib

/-!
Shallow embedding of klaus/ctagscache.py, the two-tier (uncompressed/compressed)
LRU cache for ctags tagsfiles.

Modelling choices, stated once here:

- A tagsfile on disk is modelled by its logical (uncompressed) content, a
  natural number, together with a flag saying whether the bytes on disk are in
  gzip-compressed form.  gzip round-trips content, so compression and
  decompression keep the logical content and flip the flag.
- The filesystem of temporary files is a `World`: a fresh-name counter (for
  tempfile.mkstemp) and the list of live files, keyed by path.  Paths are
  natural numbers.
- External collaborators are an `Env`: artifact creation (klaus/ctags.py
  create_tagsfile, which is not part of the sources being verified), the size
  of a tagsfile on disk in each form (os.path.getsize), and oracles saying on
  which inputs the gzip codec fails (disk full, tool error).
- Exceptions are modelled with an explicit error value threaded through each
  operation; the cache state and world returned alongside an error are the
  state at the point the exception was raised, as in Python.
- Each operation also returns the list of externally visible events it
  performed (lock acquire/release, collaborator calls), in order.
- dulwich.lru_cache.LRUSizeCache is a third-party dependency whose sources are
  not available under src/; the lru* functions below are therefore modelled
  from the specification of the SizeBoundedLRU component, not translated from
  dulwich.  Entry lists are kept least-recently-used first, so the
  most-recently-used entry is at the end.
-/

set_option linter.unusedVariables false

/-- a tagsfile on disk: its logical (uncompressed) content and whether the
bytes on disk are gzip-compressed. -/
structure TagsFile where
  content : Nat
  compressed : Bool
deriving DecidableEq, Repr

/-- the filesystem of temporary files: a fresh-path counter and the live
files, keyed by path. -/
structure World where
  nextId : Nat
  files : List (Nat × TagsFile)
deriving DecidableEq, Repr

/-- look a live file up by path. -/
def World.lookup (w : World) (p : Nat) : Option TagsFile :=
  (w.files.find? (fun f => f.1 == p)).map (fun f => f.2)

/-- create a fresh file (tempfile.mkstemp followed by writing the content). -/
def World.alloc (w : World) (f : TagsFile) : World × Nat :=
  ({ nextId := w.nextId + 1, files := (w.nextId, f) :: w.files }, w.nextId)

/-- delete a file by path (os.remove); deleting an absent path is a no-op
here, matching the best-effort destroy contract. -/
def World.erase (w : World) (p : Nat) : World :=
  { w with files := w.files.filter (fun f => f.1 != p) }

/-- environment of external collaborators: artifact creation (returns the
logical content of the generated tagsfile, or fails), the on-disk byte size of
a tagsfile in uncompressed and in compressed form, and the inputs on which the
gzip codec fails. -/
structure Env where
  create : String → String → Option Nat
  usize : Nat → Nat
  csize : Nat → Nat
  compressFails : Nat → Bool
  decompressFails : Nat → Bool

/-- exceptions that can escape a cache operation. -/
inductive Exn
  | assertionError
  | creationFailure
  | ioError
deriving DecidableEq, Repr

/-- externally visible events of a cache operation, in order. -/
inductive Event
  | acquireLock
  | releaseLock
  | createCall (repo rev : String)
  | compressCall (path : Nat)
  | decompressCall (path : Nat)
  | destroyCall (path : Nat)
deriving DecidableEq, Repr

/-- embeds os.path.getsize composed with the size model of the environment:
the byte size of the file at the given path, in its current on-disk form. -/
def fileSize (env : Env) (w : World) (p : Nat) : Nat :=
  match w.lookup p with
  | some f => if f.compressed then env.csize f.content else env.usize f.content
  | none => 0

/-- embeds compress_tagsfile: produce a fresh gzip-compressed copy of the
tagsfile at the given path, leaving the input untouched.  Fails if the input
file does not exist or the codec fails on it; the stray empty file left behind
by tempfile.mkstemp on a failed copy is not modelled. -/
def compress_tagsfile (env : Env) (w : World) (p : Nat) : Except Exn (World × Nat) :=
  match w.lookup p with
  | none => .error .ioError
  | some f =>
    if env.compressFails f.content then .error .ioError
    else
      let a := w.alloc { content := f.content, compressed := true }
      .ok (a.1, a.2)

/-- embeds uncompress_tagsfile: produce a fresh uncompressed copy of the
gzip-compressed tagsfile at the given path, leaving the input untouched.
Fails if the input file does not exist, is not in gzip form, or the codec
fails on it. -/
def uncompress_tagsfile (env : Env) (w : World) (p : Nat) : Except Exn (World × Nat) :=
  match w.lookup p with
  | none => .error .ioError
  | some f =>
    if !f.compressed then .error .ioError
    else if env.decompressFails f.content then .error .ioError
    else
      let a := w.alloc { content := f.content, compressed := false }
      .ok (a.1, a.2)

/-- Modelled from the spec: create_artifact (klaus/ctags.py create_tagsfile is
not under src/); slow and fallible, produces a fresh uncompressed tagsfile for
the given repository and revision. -/
def create_tagsfile (env : Env) (w : World) (repo rev : String) : Except Exn (World × Nat) :=
  match env.create repo rev with
  | none => .error .creationFailure
  | some c =>
    let a := w.alloc { content := c, compressed := false }
    .ok (a.1, a.2)

/-- Modelled from the spec: destroy_artifact (klaus/ctags.py delete_tagsfile
is not under src/); best-effort deletion of the file at the given path. -/
def delete_tagsfile (w : World) (p : Nat) : World :=
  w.erase p

/-- a cache entry: revision key, path of the backing file, and its byte size
as computed at insertion time. -/
structure Entry where
  rev : String
  path : Nat
  size : Nat
deriving DecidableEq, Repr

/-- total byte size of a list of entries. -/
def sizeSum (es : List Entry) : Nat :=
  (es.map (fun e => e.size)).sum

/-- the keys of a list of entries. -/
def keysOf (es : List Entry) : List String :=
  es.map (fun e => e.rev)

/-- the backing-file paths of a list of entries. -/
def pathsOf (es : List Entry) : List Nat :=
  es.map (fun e => e.path)

/-- Modelled from the spec: SizeBoundedLRU membership test (dulwich
LRUSizeCache is not under src/). -/
def lruContains (k : String) (es : List Entry) : Bool :=
  es.any (fun x => x.rev == k)

/-- Modelled from the spec: SizeBoundedLRU lookup (dulwich LRUSizeCache is not
under src/); returns the stored path and the reordered list with the entry
moved to the most-recently-used end. -/
def lruGet (k : String) (es : List Entry) : Option (Nat × List Entry) :=
  match es.find? (fun x => x.rev == k) with
  | none => none
  | some e => some (e.path, es.filter (fun x => x.rev != k) ++ [e])

/-- Modelled from the spec: SizeBoundedLRU remove (dulwich LRUSizeCache is not
under src/); removes an entry without invoking its eviction callback, used
when the resource is deliberately relocated rather than destroyed. -/
def lruRemove (k : String) (es : List Entry) : List Entry :=
  es.filter (fun x => x.rev != k)

/-- Modelled from the spec: the eviction loop of SizeBoundedLRU insert
(dulwich LRUSizeCache is not under src/).  The list is least-recently-used
first; while the total size exceeds the capacity, the least-recently-used
entry is removed and the eviction callback invoked on it, except that the
final (most-recently-used, newly inserted) entry is never evicted.  If a
callback raises, the loop stops with the entry already removed, as the
exception propagates. -/
def lruEvict {σ : Type} (cap : Nat) (onEvict : σ → Entry → σ × Option Exn) :
    List Entry → σ → List Entry × σ × Option Exn
  | [], s => ([], s, none)
  | e :: rest, s =>
    if cap < sizeSum (e :: rest) ∧ rest ≠ [] then
      match onEvict s e with
      | (s1, none) => lruEvict cap onEvict rest s1
      | (s1, some x) => (rest, s1, some x)
    else (e :: rest, s, none)

/-- Modelled from the spec: SizeBoundedLRU insert (dulwich LRUSizeCache is not
under src/): add or replace the entry at the most-recently-used end, then
evict least-recently-used entries, invoking the callback for each, until the
total size is within capacity; the newly inserted entry itself is never
evicted by its own insertion. -/
def lruInsert {σ : Type} (cap : Nat) (onEvict : σ → Entry → σ × Option Exn)
    (e : Entry) (es : List Entry) (s : σ) : List Entry × σ × Option Exn :=
  lruEvict cap onEvict (es.filter (fun x => x.rev != e.rev) ++ [e]) s

/-- Modelled from the spec: SizeBoundedLRU clear (dulwich LRUSizeCache is not
under src/): remove all entries, least-recently-used first, invoking the
eviction callback on each; if a callback raises, the remaining entries are
returned, as the exception propagates. -/
def lruClear {σ : Type} (onEvict : σ → Entry → σ × Option Exn) :
    List Entry → σ → List Entry × σ × Option Exn
  | [], s => ([], s, none)
  | e :: rest, s =>
    match onEvict s e with
    | (s1, none) => lruClear onEvict rest s1
    | (s1, some x) => (rest, s1, some x)

/-- embeds the state of class CTagsCache: the two sector capacities fixed by
init, the two LRU sectors (least-recently-used first), and the clearing
flag. -/
structure CTagsCache where
  uncompressed_max_bytes : Nat
  compressed_max_bytes : Nat
  uncompressed_cache : List Entry
  compressed_cache : List Entry
  clearing : Bool
deriving DecidableEq, Repr

/-- embeds the MiB constant. -/
def MiB : Nat := 1024 * 1024

/-- embeds CTagsCache.init: empty sectors, clearing flag unset. -/
def CTagsCache.init (uncompressed_max_bytes : Nat := 30 * MiB)
    (compressed_max_bytes : Nat := 20 * MiB) : CTagsCache :=
  { uncompressed_max_bytes := uncompressed_max_bytes
    compressed_max_bytes := compressed_max_bytes
    uncompressed_cache := []
    compressed_cache := []
    clearing := false }

/-- embeds CTagsCache._clear_compressed_entry, the eviction callback of the
compressed sector: delete the evicted compressed tagsfile from disk. -/
def CTagsCache.clearCompressedEntry (s : World × List Event) (e : Entry) :
    (World × List Event) × Option Exn :=
  ((delete_tagsfile s.1 e.path, s.2 ++ [.destroyCall e.path]), none)

/-- embeds CTagsCache._clear_uncompressed_entry, the eviction callback of the
uncompressed sector: unless the whole cache is being cleared, compress the
evicted tagsfile and add the compressed copy to the compressed sector (which
may cascade-evict); then delete the uncompressed tagsfile.  A codec failure
propagates before the delete, as in the source, which has no try/finally. -/
def CTagsCache.clearUncompressedEntry (env : Env) (s : CTagsCache × World × List Event)
    (e : Entry) : (CTagsCache × World × List Event) × Option Exn :=
  let st := s.1
  let w := s.2.1
  let tr := s.2.2
  if st.clearing then
    ((st, delete_tagsfile w e.path, tr ++ [.destroyCall e.path]), none)
  else
    match compress_tagsfile env w e.path with
    | .error x => ((st, w, tr ++ [.compressCall e.path]), some x)
    | .ok (w1, q) =>
      match lruInsert st.compressed_max_bytes CTagsCache.clearCompressedEntry
          { rev := e.rev, path := q, size := fileSize env w1 q }
          st.compressed_cache (w1, tr ++ [.compressCall e.path]) with
      | (ces, (w2, tr2), none) =>
        (({ st with compressed_cache := ces }, delete_tagsfile w2 e.path,
          tr2 ++ [.destroyCall e.path]), none)
      | (ces, (w2, tr2), some x) =>
        (({ st with compressed_cache := ces }, w2, tr2), some x)

/-- embeds the tail of CTagsCache.get_tagsfile shared by the promotion and the
miss paths: self.uncompressed_cache.add(git_rev, path, clearUncompressedEntry)
followed by returning the path; the releaseLock event of the enclosing
with-block is appended on both outcomes. -/
def CTagsCache.finishInsert (env : Env) (st : CTagsCache) (w : World) (tr : List Event)
    (git_rev : String) (q : Nat) : Except Exn Nat × CTagsCache × World × List Event :=
  match lruInsert st.uncompressed_max_bytes (CTagsCache.clearUncompressedEntry env)
      { rev := git_rev, path := q, size := fileSize env w q }
      st.uncompressed_cache (st, w, tr) with
  | (ues, (st1, w1, tr1), none) =>
    (.ok q, { st1 with uncompressed_cache := ues }, w1, tr1 ++ [.releaseLock])
  | (ues, (st1, w1, tr1), some x) =>
    (.error x, { st1 with uncompressed_cache := ues }, w1, tr1 ++ [.releaseLock])

/-- embeds CTagsCache.get_tagsfile: assert that the revision has length 40,
then, under the cache lock, return the uncompressed entry if present; else if
a compressed entry is present, record its access, decompress it, remove the
compressed entry without its callback, and fall through to the insert; else
create the tagsfile; finally add the uncompressed path to the uncompressed
sector and return it. -/
def CTagsCache.get_tagsfile (env : Env) (st : CTagsCache) (w : World)
    (git_repo_path git_rev : String) :
    Except Exn Nat × CTagsCache × World × List Event :=
  if git_rev.length = 40 then
    match lruGet git_rev st.uncompressed_cache with
    | some pr =>
      (.ok pr.1, { st with uncompressed_cache := pr.2 }, w, [.acquireLock, .releaseLock])
    | none =>
      match lruGet git_rev st.compressed_cache with
      | some pr =>
        let st1 := { st with compressed_cache := pr.2 }
        match uncompress_tagsfile env w pr.1 with
        | .error x =>
          (.error x, st1, w, [.acquireLock, .decompressCall pr.1, .releaseLock])
        | .ok (w1, q) =>
          let st2 := { st1 with compressed_cache := lruRemove git_rev st1.compressed_cache }
          CTagsCache.finishInsert env st2 w1 [.acquireLock, .decompressCall pr.1] git_rev q
      | none =>
        match create_tagsfile env w git_repo_path git_rev with
        | .error x =>
          (.error x, st, w, [.acquireLock, .createCall git_repo_path git_rev, .releaseLock])
        | .ok (w1, q) =>
          CTagsCache.finishInsert env st w1
            [.acquireLock, .createCall git_repo_path git_rev] git_rev q
  else
    (.error .assertionError, st, w, [])

/-- embeds CTagsCache.clear: set the clearing flag, clear the uncompressed
sector (its callback sees the flag and deletes entries directly), clear the
compressed sector, and unset the flag.  The source takes no lock here, so no
lock events are emitted.  An exception from a callback would propagate with
the flag still set, as in the source. -/
def CTagsCache.clear (env : Env) (st : CTagsCache) (w : World) :
    Except Exn Unit × CTagsCache × World × List Event :=
  let st1 := { st with clearing := true }
  match lruClear (CTagsCache.clearUncompressedEntry env) st1.uncompressed_cache (st1, w, []) with
  | (ues, (st2, w1, tr1), some x) =>
    (.error x, { st2 with uncompressed_cache := ues }, w1, tr1)
  | (ues, (st2, w1, tr1), none) =>
    let st3 := { st2 with uncompressed_cache := ues }
    match lruClear CTagsCache.clearCompressedEntry st3.compressed_cache (w1, tr1) with
    | (ces, (w2, tr2), some x) =>
      (.error x, { st3 with compressed_cache := ces }, w2, tr2)
    | (ces, (w2, tr2), none) =>
      (.ok (), { st3 with compressed_cache := ces, clearing := false }, w2, tr2)

/-!
Concrete fixtures for evaluated runs: revisions of length 40, small
environments, and small cache states. -/

/-- a 40-character revision identifier. -/
def revA : String := "aaaaaaaaaaaaaaaaaaaaaaaaaaaaaaaaaaaaaaaa"

/-- another 40-character revision identifier. -/
def revB : String := "bbbbbbbbbbbbbbbbbbbbbbbbbbbbbbbbbbbbbbbb"

/-- a third 40-character revision identifier, for which creation fails in the
fixtures below. -/
def revC : String := "cccccccccccccccccccccccccccccccccccccccc"

/-- a 40-character revision identifier that is not hexadecimal. -/
def revG : String := "gggggggggggggggggggggggggggggggggggggggg"

/-- a benign environment: creation succeeds for revA, revB and revG and fails
otherwise; tagsfiles are 6 bytes uncompressed (except content 3, a large
1000-byte tagsfile) and 3 bytes compressed; the codec never fails. -/
def env1 : Env :=
  { create := fun _ rev =>
      if rev = revA then some 1 else if rev = revB then some 2
      else if rev = revG then some 3 else none
    usize := fun c => if c = 3 then 1000 else 6
    csize := fun _ => 3
    compressFails := fun _ => false
    decompressFails := fun _ => false }

/-- an environment in which compressing the tagsfile with content 1 fails. -/
def env2 : Env :=
  { create := fun _ rev =>
      if rev = revA then some 1 else if rev = revB then some 2 else none
    usize := fun _ => 6
    csize := fun _ => 3
    compressFails := fun c => c == 1
    decompressFails := fun _ => false }

/-- an empty world. -/
def w0 : World := { nextId := 0, files := [] }

/-- an empty cache with a 10-byte uncompressed sector and a 100-byte
compressed sector. -/
def st0 : CTagsCache := CTagsCache.init 10 100

/-- an environment for a capacity counterexample sequence: revA, revB and
revG create tagsfiles of 4, 4 and 8 bytes; compressing the tagsfile of revA
(content 11) fails, so the demotion triggered by inserting revG aborts. -/
def env3 : Env :=
  { create := fun _ rev =>
      if rev = revA then some 11 else if rev = revB then some 12
      else if rev = revG then some 14 else none
    usize := fun c => if c = 11 then 4 else if c = 12 then 4 else if c = 14 then 8 else 6
    csize := fun _ => 3
    compressFails := fun c => c == 11
    decompressFails := fun _ => false }

/-- an environment in which decompressing the tagsfile with content 1 fails. -/
def env4 : Env :=
  { create := fun _ _ => none
    usize := fun _ => 6
    csize := fun _ => 3
    compressFails := fun _ => false
    decompressFails := fun c => c == 1 }

/-- a world holding the compressed tagsfile of revA (path 0) and the
uncompressed tagsfile of revB (path 1). -/
def w1 : World := { nextId := 2, files := [(0, ⟨1, true⟩), (1, ⟨2, false⟩)] }

/-- the cache state reached by inserting revA then revB into st0: revB hot,
revA demoted to the compressed sector. -/
def st1 : CTagsCache :=
  { uncompressed_max_bytes := 10
    compressed_max_bytes := 100
    uncompressed_cache := [⟨revB, 1, 6⟩]
    compressed_cache := [⟨revA, 0, 3⟩]
    clearing := false }

/-- a world holding only the uncompressed tagsfile of revA (path 0). -/
def w2 : World := { nextId := 1, files := [(0, ⟨1, false⟩)] }

/-- a cache state holding only revA in the uncompressed sector. -/
def st2 : CTagsCache :=
  { uncompressed_max_bytes := 10
    compressed_max_bytes := 100
    uncompressed_cache := [⟨revA, 0, 6⟩]
    compressed_cache := []
    clearing := false }

/-!
Basic lemmas about worlds, sizes and keys. -/

theorem sizeSum_nil : sizeSum [] = 0 := rfl

theorem sizeSum_cons (e : Entry) (es : List Entry) :
    sizeSum (e :: es) = e.size + sizeSum es := by
  simp [sizeSum]

theorem sizeSum_append (l1 l2 : List Entry) :
    sizeSum (l1 ++ l2) = sizeSum l1 + sizeSum l2 := by
  simp [sizeSum]

theorem sizeSum_sublist_le {l1 l2 : List Entry} (h : List.Sublist l1 l2) :
    sizeSum l1 ≤ sizeSum l2 := by
  induction h with
  | slnil => exact Nat.le_refl _
  | cons e h ih => simp only [sizeSum_cons]; omega
  | cons₂ e h ih => simp only [sizeSum_cons]; omega

theorem mem_of_mem_sizeSum {e : Entry} {es : List Entry} (h : e ∈ es) :
    e.size ≤ sizeSum es := by
  induction es with
  | nil => cases h
  | cons a es ih =>
    rcases List.mem_cons.mp h with rfl | h2
    · simp [sizeSum_cons]
    · have := ih h2
      simp only [sizeSum_cons]; omega

theorem keysOf_nil : keysOf [] = [] := rfl

theorem keysOf_cons (e : Entry) (es : List Entry) :
    keysOf (e :: es) = e.rev :: keysOf es := rfl

theorem keysOf_append (l1 l2 : List Entry) :
    keysOf (l1 ++ l2) = keysOf l1 ++ keysOf l2 := by
  simp [keysOf]

theorem mem_keysOf {k : String} {es : List Entry} :
    k ∈ keysOf es ↔ ∃ e, e ∈ es ∧ e.rev = k := by
  simp [keysOf]

theorem keysOf_sublist {l1 l2 : List Entry} (h : List.Sublist l1 l2) :
    List.Sublist (keysOf l1) (keysOf l2) :=
  List.Sublist.map _ h

theorem pathsOf_sublist {l1 l2 : List Entry} (h : List.Sublist l1 l2) :
    List.Sublist (pathsOf l1) (pathsOf l2) :=
  List.Sublist.map _ h

theorem mem_pathsOf {p : Nat} {es : List Entry} :
    p ∈ pathsOf es ↔ ∃ e, e ∈ es ∧ e.path = p := by
  simp [pathsOf]

theorem mem_filter_rev {x : Entry} {es : List Entry} {k : String} :
    x ∈ es.filter (fun y => y.rev != k) ↔ x ∈ es ∧ x.rev ≠ k := by
  simp [List.mem_filter]

theorem not_mem_keysOf_filter (es : List Entry) (k : String) :
    k ∉ keysOf (es.filter (fun y => y.rev != k)) := by
  intro h
  rcases mem_keysOf.mp h with ⟨e, he, hrev⟩
  rcases mem_filter_rev.mp he with ⟨_, hne⟩
  exact hne hrev

theorem World.erase_nextId (w : World) (q : Nat) : (w.erase q).nextId = w.nextId := rfl

theorem World.alloc_fst_nextId (w : World) (f : TagsFile) :
    (w.alloc f).1.nextId = w.nextId + 1 := rfl

theorem World.alloc_snd (w : World) (f : TagsFile) : (w.alloc f).2 = w.nextId := rfl

theorem World.lookup_alloc_self (w : World) (f : TagsFile) :
    (w.alloc f).1.lookup w.nextId = some f := by
  simp [World.lookup, World.alloc, List.find?]

theorem World.lookup_alloc_ne (w : World) (f : TagsFile) {p : Nat}
    (h : p ≠ w.nextId) : (w.alloc f).1.lookup p = w.lookup p := by
  simp only [World.lookup, World.alloc, List.find?]
  have : (w.nextId == p) = false := by
    simp [Ne.symm h]
  simp [this]

theorem World.lookup_erase_ne (w : World) {p q : Nat} (h : p ≠ q) :
    (w.erase q).lookup p = w.lookup p := by
  simp only [World.lookup, World.erase]
  congr 1
  induction w.files with
  | nil => rfl
  | cons a l ih =>
    by_cases haq : a.1 = q
    · have h1 : (a.1 != q) = false := by simp [haq]
      have h2 : (a.1 == p) = false := by
        simp only [beq_eq_false_iff_ne, ne_eq]
        intro hap; exact h (by rw [← hap, haq])
      simp [List.filter_cons, h1, List.find?_cons, h2, ih]
    · have h1 : (a.1 != q) = true := by simp [haq]
      by_cases hap : a.1 = p
      · have h2 : (a.1 == p) = true := by simp [hap]
        simp [List.filter_cons, h1, List.find?_cons, h2]
      · have h2 : (a.1 == p) = false := by simp [hap]
        simp [List.filter_cons, h1, List.find?_cons, h2, ih]

/-!
Generic lemmas about the eviction loop, for an arbitrary callback. -/

theorem lruEvict_sublist {σ : Type} {cap : Nat} {f : σ → Entry → σ × Option Exn} :
    ∀ {es : List Entry} {s : σ} {es2 : List Entry} {s2 : σ} {x : Option Exn},
    lruEvict cap f es s = (es2, s2, x) → es2 <:+ es := by
  intro es
  induction es with
  | nil =>
    intro s es2 s2 x h
    simp only [lruEvict, Prod.mk.injEq] at h
    obtain ⟨h1, _, _⟩ := h
    subst h1
    exact List.suffix_refl []
  | cons e rest ih =>
    intro s es2 s2 x h
    simp only [lruEvict] at h
    split at h
    · rcases hfe : f s e with ⟨s1, x1⟩
      rw [hfe] at h
      cases x1 with
      | none =>
        exact List.IsSuffix.trans (ih h) (List.suffix_cons e rest)
      | some y =>
        simp only [Prod.mk.injEq] at h
        obtain ⟨h1, _, _⟩ := h
        subst h1
        exact List.suffix_cons e rest
    · simp only [Prod.mk.injEq] at h
      obtain ⟨h1, _, _⟩ := h
      subst h1
      exact List.suffix_refl _

theorem lruEvict_ne_nil {σ : Type} {cap : Nat} {f : σ → Entry → σ × Option Exn} :
    ∀ {es : List Entry} {s : σ} {es2 : List Entry} {s2 : σ} {x : Option Exn},
    es ≠ [] → lruEvict cap f es s = (es2, s2, x) → es2 ≠ [] := by
  intro es
  induction es with
  | nil => intro s es2 s2 x hne; exact absurd rfl hne
  | cons e rest ih =>
    intro s es2 s2 x hne h
    simp only [lruEvict] at h
    split at h
    · rename_i hcond
      rcases hfe : f s e with ⟨s1, x1⟩
      rw [hfe] at h
      cases x1 with
      | none => exact ih hcond.2 h
      | some y =>
        simp only [Prod.mk.injEq] at h
        obtain ⟨h1, _, _⟩ := h
        subst h1
        exact hcond.2
    · simp only [Prod.mk.injEq] at h
      obtain ⟨h1, _, _⟩ := h
      subst h1
      simp

theorem lruEvict_cap {σ : Type} {cap : Nat} {f : σ → Entry → σ × Option Exn} :
    ∀ {es : List Entry} {s : σ} {es2 : List Entry} {s2 : σ},
    lruEvict cap f es s = (es2, s2, none) → sizeSum es2 ≤ cap ∨ es2.length ≤ 1 := by
  intro es
  induction es with
  | nil =>
    intro s es2 s2 h
    simp only [lruEvict, Prod.mk.injEq] at h
    obtain ⟨h1, _, _⟩ := h
    subst h1
    right; simp
  | cons e rest ih =>
    intro s es2 s2 h
    simp only [lruEvict] at h
    split at h
    · rcases hfe : f s e with ⟨s1, x1⟩
      rw [hfe] at h
      cases x1 with
      | none => exact ih h
      | some y => simp only [Prod.mk.injEq] at h; exact absurd h.2.2 (by simp)
    · rename_i hcond
      simp only [Prod.mk.injEq] at h
      obtain ⟨h1, _, _⟩ := h
      subst h1
      rcases not_and_or.mp hcond with hle | hnil
      · left; omega
      · right
        have : rest = [] := not_not.mp hnil
        subst this
        simp

theorem lruEvict_nofail {σ : Type} {cap : Nat} {f : σ → Entry → σ × Option Exn}
    (hf : ∀ s e, (f s e).2 = none) :
    ∀ {es : List Entry} {s : σ} {es2 : List Entry} {s2 : σ} {x : Option Exn},
    lruEvict cap f es s = (es2, s2, x) → x = none := by
  intro es
  induction es with
  | nil =>
    intro s es2 s2 x h
    simp only [lruEvict, Prod.mk.injEq] at h
    exact h.2.2.symm
  | cons e rest ih =>
    intro s es2 s2 x h
    simp only [lruEvict] at h
    split at h
    · rcases hfe : f s e with ⟨s1, x1⟩
      rw [hfe] at h
      have hx1 : x1 = none := by
        have := hf s e
        rw [hfe] at this
        exact this
      subst hx1
      exact ih h
    · simp only [Prod.mk.injEq] at h
      exact h.2.2.symm

theorem lruEvict_last {σ : Type} {cap : Nat} {f : σ → Entry → σ × Option Exn} {e : Entry} :
    ∀ {l : List Entry} {s : σ} {es2 : List Entry} {s2 : σ} {x : Option Exn},
    lruEvict cap f (l ++ [e]) s = (es2, s2, x) → ∃ l2, es2 = l2 ++ [e] ∧ l2 <:+ l := by
  intro l
  induction l with
  | nil =>
    intro s es2 s2 x h
    simp only [List.nil_append, lruEvict] at h
    split at h
    · rename_i hcond
      exact absurd hcond.2 (by simp)
    · simp only [Prod.mk.injEq] at h
      obtain ⟨h1, _, _⟩ := h
      subst h1
      exact ⟨[], rfl, List.suffix_refl []⟩
  | cons a l ih =>
    intro s es2 s2 x h
    simp only [List.cons_append, lruEvict] at h
    split at h
    · rcases hfe : f s a with ⟨s1, x1⟩
      rw [hfe] at h
      cases x1 with
      | none =>
        rcases ih h with ⟨l2, hl2, hsuf⟩
        exact ⟨l2, hl2, List.IsSuffix.trans hsuf (List.suffix_cons a l)⟩
      | some y =>
        simp only [Prod.mk.injEq] at h
        obtain ⟨h1, _, _⟩ := h
        subst h1
        exact ⟨l, rfl, List.suffix_cons a l⟩
    · simp only [Prod.mk.injEq] at h
      obtain ⟨h1, _, _⟩ := h
      subst h1
      exact ⟨a :: l, rfl, List.suffix_refl _⟩

theorem lruClear_nofail {σ : Type} {f : σ → Entry → σ × Option Exn}
    (hf : ∀ s e, (f s e).2 = none) :
    ∀ {es : List Entry} {s : σ} {es2 : List Entry} {s2 : σ} {x : Option Exn},
    lruClear f es s = (es2, s2, x) → es2 = [] ∧ x = none := by
  intro es
  induction es with
  | nil =>
    intro s es2 s2 x h
    simp only [lruClear, Prod.mk.injEq] at h
    exact ⟨h.1.symm, h.2.2.symm⟩
  | cons e rest ih =>
    intro s es2 s2 x h
    simp only [lruClear] at h
    rcases hfe : f s e with ⟨s1, x1⟩
    rw [hfe] at h
    have hx1 : x1 = none := by
      have := hf s e
      rw [hfe] at this
      exact this
    subst hx1
    exact ih h

/-!
Lemmas about the compressed-sector eviction callback and loop. -/

theorem pathsOf_nil : pathsOf [] = [] := rfl

theorem pathsOf_cons (e : Entry) (es : List Entry) :
    pathsOf (e :: es) = e.path :: pathsOf es := rfl

theorem clearCompressedEntry_eq (w : World) (tr : List Event) (e : Entry) :
    CTagsCache.clearCompressedEntry (w, tr) e
      = ((w.erase e.path, tr ++ [Event.destroyCall e.path]), none) := rfl

theorem clearCompressedEntry_nofail :
    ∀ (s : World × List Event) (e : Entry), (CTagsCache.clearCompressedEntry s e).2 = none := by
  intro s e
  rcases s with ⟨w, tr⟩
  rfl

theorem coldEvict_facts {cap : Nat} :
    ∀ {es : List Entry} {w : World} {tr : List Event} {es2 : List Entry} {w2 : World}
      {tr2 : List Event} {x : Option Exn},
    lruEvict cap CTagsCache.clearCompressedEntry es (w, tr) = (es2, (w2, tr2), x) →
    x = none ∧ w2.nextId = w.nextId
      ∧ (∀ p, p ∉ pathsOf es → w2.lookup p = w.lookup p)
      ∧ (∃ d, tr2 = tr ++ d ∧ ∀ ev ∈ d, ∃ p, ev = Event.destroyCall p ∧ p ∈ pathsOf es) := by
  intro es
  induction es with
  | nil =>
    intro w tr es2 w2 tr2 x h
    simp only [lruEvict, Prod.mk.injEq] at h
    obtain ⟨rfl, ⟨rfl, rfl⟩, rfl⟩ := h
    exact ⟨rfl, rfl, fun p _ => rfl, ⟨[], by simp, by simp⟩⟩
  | cons e rest ih =>
    intro w tr es2 w2 tr2 x h
    simp only [lruEvict] at h
    split at h
    · rw [clearCompressedEntry_eq] at h
      rcases ih h with ⟨hx, hnid, hlook, d, hd, hdev⟩
      refine ⟨hx, by rw [hnid, World.erase_nextId], ?_, ?_⟩
      · intro p hp
        have hpe : p ≠ e.path := by
          intro hcon
          exact hp (by rw [pathsOf_cons, hcon]; exact List.mem_cons_self _ _)
        have hpr : p ∉ pathsOf rest := by
          intro hcon
          exact hp (by rw [pathsOf_cons]; exact List.mem_cons_of_mem _ hcon)
        rw [hlook p hpr, World.lookup_erase_ne w hpe]
      · refine ⟨Event.destroyCall e.path :: d, by rw [hd]; simp, ?_⟩
        intro ev hev
        rcases List.mem_cons.mp hev with rfl | hev2
        · exact ⟨e.path, rfl, by rw [pathsOf_cons]; exact List.mem_cons_self _ _⟩
        · rcases hdev ev hev2 with ⟨p, hp1, hp2⟩
          exact ⟨p, hp1, by rw [pathsOf_cons]; exact List.mem_cons_of_mem _ hp2⟩
    · simp only [Prod.mk.injEq] at h
      obtain ⟨rfl, ⟨rfl, rfl⟩, rfl⟩ := h
      exact ⟨rfl, rfl, fun p _ => rfl, ⟨[], by simp, by simp⟩⟩

/-!
Success shapes of the collaborator calls. -/

theorem compress_tagsfile_ok {env : Env} {w : World} {p : Nat} {w1 : World} {q : Nat}
    (h : compress_tagsfile env w p = .ok (w1, q)) :
    ∃ f, w.lookup p = some f ∧ env.compressFails f.content = false
      ∧ w1 = (w.alloc ⟨f.content, true⟩).1 ∧ q = w.nextId := by
  unfold compress_tagsfile at h
  rcases hl : w.lookup p with _ | f
  · simp only [hl] at h; cases h
  · simp only [hl] at h
    cases hcf : env.compressFails f.content with
    | false =>
      simp only [hcf, Bool.false_eq_true, if_false, Except.ok.injEq, Prod.mk.injEq] at h
      exact ⟨f, rfl, hcf, h.1.symm, h.2.symm⟩
    | true => simp only [hcf, if_true] at h; cases h

theorem uncompress_tagsfile_ok {env : Env} {w : World} {p : Nat} {w1 : World} {q : Nat}
    (h : uncompress_tagsfile env w p = .ok (w1, q)) :
    ∃ f, w.lookup p = some f ∧ f.compressed = true
      ∧ env.decompressFails f.content = false
      ∧ w1 = (w.alloc ⟨f.content, false⟩).1 ∧ q = w.nextId := by
  unfold uncompress_tagsfile at h
  rcases hl : w.lookup p with _ | f
  · simp only [hl] at h; cases h
  · simp only [hl] at h
    cases hc : f.compressed with
    | false => simp only [hc, Bool.not_false, if_true] at h; cases h
    | true =>
      simp only [hc, Bool.not_true, Bool.false_eq_true, if_false] at h
      cases hdf : env.decompressFails f.content with
      | false =>
        simp only [hdf, Bool.false_eq_true, if_false, Except.ok.injEq, Prod.mk.injEq] at h
        exact ⟨f, rfl, hc, hdf, h.1.symm, h.2.symm⟩
      | true => simp only [hdf, if_true] at h; cases h

theorem create_tagsfile_ok {env : Env} {w : World} {repo rev : String} {w1 : World} {q : Nat}
    (h : create_tagsfile env w repo rev = .ok (w1, q)) :
    ∃ c, env.create repo rev = some c
      ∧ w1 = (w.alloc ⟨c, false⟩).1 ∧ q = w.nextId := by
  unfold create_tagsfile at h
  rcases hl : env.create repo rev with _ | c
  · simp only [hl] at h; cases h
  · simp only [hl, Except.ok.injEq, Prod.mk.injEq] at h
    exact ⟨c, rfl, h.1.symm, h.2.symm⟩

theorem create_tagsfile_none {env : Env} {w : World} {repo rev : String}
    (h : env.create repo rev = none) :
    create_tagsfile env w repo rev = .error .creationFailure := by
  unfold create_tagsfile
  rw [h]

/-!
Comprehensive description of a single invocation of the uncompressed-sector
eviction callback. -/

theorem hotCB_facts (env : Env) {st : CTagsCache} {w : World} {tr : List Event} {e : Entry}
    {st2 : CTagsCache} {w2 : World} {tr2 : List Event} {x : Option Exn}
    (h : CTagsCache.clearUncompressedEntry env (st, w, tr) e = ((st2, w2, tr2), x)) :
    st2.uncompressed_cache = st.uncompressed_cache
    ∧ st2.uncompressed_max_bytes = st.uncompressed_max_bytes
    ∧ st2.compressed_max_bytes = st.compressed_max_bytes
    ∧ st2.clearing = st.clearing
    ∧ w.nextId ≤ w2.nextId
    ∧ (∃ d, tr2 = tr ++ d ∧ ∀ ev ∈ d, ∃ p, ev = Event.compressCall p ∨ ev = Event.destroyCall p)
    ∧ (st.clearing = false → Event.compressCall e.path ∈ tr2)
    ∧ (∀ k, k ∈ keysOf st2.compressed_cache → k ∈ keysOf st.compressed_cache ∨ k = e.rev)
    ∧ (List.Nodup (keysOf st.compressed_cache) → List.Nodup (keysOf st2.compressed_cache))
    ∧ ((sizeSum st.compressed_cache ≤ st.compressed_max_bytes ∨ st.compressed_cache.length ≤ 1) →
        (sizeSum st2.compressed_cache ≤ st.compressed_max_bytes ∨ st2.compressed_cache.length ≤ 1))
    ∧ (∀ p v, p < w.nextId → p ≠ e.path → p ∉ pathsOf st.compressed_cache →
        w.lookup p = some v → w2.lookup p = some v)
    ∧ (∀ p, Event.destroyCall p ∈ tr2 →
        Event.destroyCall p ∈ tr ∨ p = e.path ∨ p ∈ pathsOf st.compressed_cache ∨ w.nextId ≤ p)
    ∧ ((∀ f ∈ st.compressed_cache, f.path < w.nextId) →
        ∀ f ∈ st2.compressed_cache, f.path < w2.nextId)
    ∧ (∀ p2, p2 ∈ pathsOf st2.compressed_cache →
        p2 ∈ pathsOf st.compressed_cache ∨ w.nextId ≤ p2) := by
  simp only [CTagsCache.clearUncompressedEntry, delete_tagsfile] at h
  split at h
  · -- clearing flag set: delete directly
    rename_i hcl
    simp only [Prod.mk.injEq] at h
    obtain ⟨⟨rfl, rfl, rfl⟩, rfl⟩ := h
    refine ⟨rfl, rfl, rfl, rfl, Nat.le_refl _, ?_, ?_, ?_, ?_, ?_, ?_, ?_, ?_, ?_⟩
    · refine ⟨[Event.destroyCall e.path], rfl, ?_⟩
      intro ev hev
      rcases List.mem_singleton.mp hev with rfl
      exact ⟨e.path, Or.inr rfl⟩
    · intro hc0; rw [hc0] at hcl; cases hcl
    · intro k hk; exact Or.inl hk
    · intro hnd; exact hnd
    · intro hc; exact hc
    · intro p v hplt hpe hpc hl
      rw [World.lookup_erase_ne w hpe]
      exact hl
    · intro p hp
      rcases List.mem_append.mp hp with hp1 | hp2
      · exact Or.inl hp1
      · rcases List.mem_singleton.mp hp2 with hp3
        have : p = e.path := by
          injection hp3
        exact Or.inr (Or.inl this)
    · intro hb f hf
      rw [World.erase_nextId]
      exact hb f hf
    · intro p2 hp2; exact Or.inl hp2
  · -- clearing flag unset: demote into the compressed sector
    rename_i hcl
    have hcl0 : st.clearing = false := by
      revert hcl; cases st.clearing <;> simp
    rcases hcomp : compress_tagsfile env w e.path with x1 | ⟨w1, q⟩
    · simp only [hcomp] at h
      simp only [Prod.mk.injEq] at h
      obtain ⟨⟨rfl, rfl, rfl⟩, rfl⟩ := h
      refine ⟨rfl, rfl, rfl, rfl, Nat.le_refl _, ?_, ?_, ?_, ?_, ?_, ?_, ?_, ?_, ?_⟩
      · refine ⟨[Event.compressCall e.path], rfl, ?_⟩
        intro ev hev
        rcases List.mem_singleton.mp hev with rfl
        exact ⟨e.path, Or.inl rfl⟩
      · intro _
        exact List.mem_append_right _ (List.mem_singleton.mpr rfl)
      · intro k hk; exact Or.inl hk
      · intro hnd; exact hnd
      · intro hc; exact hc
      · intro p v hplt hpe hpc hl; exact hl
      · intro p hp
        rcases List.mem_append.mp hp with hp1 | hp2
        · exact Or.inl hp1
        · rcases List.mem_singleton.mp hp2 with hp3
          cases hp3
      · intro hb f hf
        exact hb f hf
      · intro p2 hp2; exact Or.inl hp2
    · simp only [hcomp] at h
      obtain ⟨f, hlf, hcf, hw1, hq⟩ := compress_tagsfile_ok hcomp
      rcases hins : lruInsert st.compressed_max_bytes CTagsCache.clearCompressedEntry
          { rev := e.rev, path := q, size := fileSize env w1 q }
          st.compressed_cache (w1, tr ++ [Event.compressCall e.path])
        with ⟨ces2, ⟨w2p, tr2p⟩, xc⟩
      have hins2 := hins
      rw [lruInsert] at hins2
      have hxc : xc = none := lruEvict_nofail clearCompressedEntry_nofail hins2
      subst hxc
      rw [hins] at h
      simp only [Prod.mk.injEq] at h
      obtain ⟨⟨rfl, rfl, rfl⟩, rfl⟩ := h
      obtain ⟨-, hnid, hlook, d, hd, hdev⟩ := coldEvict_facts hins2
      obtain ⟨l2, hces2, hsuf⟩ := lruEvict_last hins2
      have hcap := lruEvict_cap hins2
      have hl2sub : List.Sublist l2 st.compressed_cache :=
        List.Sublist.trans hsuf.sublist (List.filter_sublist _)
      have hw2nid : (w2p.erase e.path).nextId = w.nextId + 1 := by
        rw [World.erase_nextId, hnid, hw1, World.alloc_fst_nextId]
      have hnotL : ∀ p, p < w.nextId → p ∉ pathsOf st.compressed_cache →
          p ∉ pathsOf (st.compressed_cache.filter (fun y => y.rev != e.rev)
            ++ [Entry.mk e.rev q (fileSize env w1 q)]) := by
        intro p hplt hpc hmem
        rw [pathsOf, List.map_append] at hmem
        rcases List.mem_append.mp hmem with h1 | h2
        · exact hpc ((pathsOf_sublist (List.filter_sublist _)).subset h1)
        · simp only [List.map_cons, List.map_nil, List.mem_singleton] at h2
          rw [h2, hq] at hplt
          exact Nat.lt_irrefl _ hplt
      refine ⟨rfl, rfl, rfl, rfl, ?_, ?_, ?_, ?_, ?_, ?_, ?_, ?_, ?_, ?_⟩
      · rw [hw2nid]; omega
      · refine ⟨Event.compressCall e.path :: (d ++ [Event.destroyCall e.path]), ?_, ?_⟩
        · rw [hd]; simp
        · intro ev hev
          rcases List.mem_cons.mp hev with rfl | hev2
          · exact ⟨e.path, Or.inl rfl⟩
          · rcases List.mem_append.mp hev2 with hev3 | hev4
            · rcases hdev ev hev3 with ⟨p, hp1, _⟩
              exact ⟨p, Or.inr hp1⟩
            · rcases List.mem_singleton.mp hev4 with rfl
              exact ⟨e.path, Or.inr rfl⟩
      · intro _
        rw [hd]
        simp
      · intro k hk
        simp only [hces2, keysOf_append] at hk
        rcases List.mem_append.mp hk with h1 | h2
        · exact Or.inl ((keysOf_sublist hl2sub).subset h1)
        · simp only [keysOf, List.map_cons, List.map_nil, List.mem_singleton] at h2
          exact Or.inr h2
      · intro hnd
        rw [hces2]
        have hnl2 : List.Nodup (keysOf l2) := List.Nodup.sublist (keysOf_sublist hl2sub) hnd
        have hne : e.rev ∉ keysOf l2 := by
          intro hmem
          exact not_mem_keysOf_filter st.compressed_cache e.rev
            ((keysOf_sublist hsuf.sublist).subset hmem)
        simp only [keysOf, List.map_append, List.map_cons, List.map_nil]
        rw [List.nodup_append]
        refine ⟨hnl2, List.nodup_singleton _, ?_⟩
        intro a ha hb
        have hab : a = e.rev := List.mem_singleton.mp hb
        subst hab
        exact hne ha
      · intro _
        exact hcap
      · intro p v hplt hpe hpc hl
        rw [World.lookup_erase_ne _ hpe, hlook p (hnotL p hplt hpc), hw1,
          World.lookup_alloc_ne w _ (Nat.ne_of_lt hplt)]
        exact hl
      · intro p hp
        rcases List.mem_append.mp hp with hp1 | hp2
        · rw [hd] at hp1
          rcases List.mem_append.mp hp1 with hp3 | hp4
          · rcases List.mem_append.mp hp3 with hp5 | hp6
            · exact Or.inl hp5
            · rcases List.mem_singleton.mp hp6 with hp7
              cases hp7
          · rcases hdev _ hp4 with ⟨p2, hp5, hp6⟩
            have hpp2 : p = p2 := by injection hp5
            subst hpp2
            rw [pathsOf, List.map_append] at hp6
            rcases List.mem_append.mp hp6 with h1 | h2
            · exact Or.inr (Or.inr (Or.inl
                ((pathsOf_sublist (List.filter_sublist _)).subset h1)))
            · simp only [List.map_cons, List.map_nil, List.mem_singleton] at h2
              rw [h2, hq]
              exact Or.inr (Or.inr (Or.inr (Nat.le_refl _)))
        · rcases List.mem_singleton.mp hp2 with hp3
          have : p = e.path := by injection hp3
          exact Or.inr (Or.inl this)
      · intro hb f2 hf2
        rw [hw2nid]
        rw [hces2] at hf2
        rcases List.mem_append.mp hf2 with h1 | h2
        · have := hb f2 (hl2sub.subset h1)
          omega
        · rcases List.mem_singleton.mp h2 with rfl
          simp only [hq]
          omega
      · intro p2 hp2
        rw [hces2, pathsOf, List.map_append] at hp2
        rcases List.mem_append.mp hp2 with h1 | h2
        · exact Or.inl ((pathsOf_sublist hl2sub).subset h1)
        · simp only [List.map_cons, List.map_nil, List.mem_singleton] at h2
          rw [h2, hq]
          exact Or.inr (Nat.le_refl _)

/-!
Comprehensive description of the uncompressed-sector eviction loop. -/

theorem hotLoop_facts (env : Env) {cap : Nat} :
    ∀ {es : List Entry} {st : CTagsCache} {w : World} {tr : List Event}
      {es2 : List Entry} {st2 : CTagsCache} {w2 : World} {tr2 : List Event} {x : Option Exn},
    lruEvict cap (CTagsCache.clearUncompressedEntry env) es (st, w, tr)
      = (es2, (st2, w2, tr2), x) →
    st2.uncompressed_cache = st.uncompressed_cache
    ∧ st2.uncompressed_max_bytes = st.uncompressed_max_bytes
    ∧ st2.compressed_max_bytes = st.compressed_max_bytes
    ∧ st2.clearing = st.clearing
    ∧ w.nextId ≤ w2.nextId
    ∧ (∃ d, tr2 = tr ++ d ∧ ∀ ev ∈ d, ∃ p, ev = Event.compressCall p ∨ ev = Event.destroyCall p)
    ∧ (st.clearing = false → ∀ f ∈ es, f ∉ es2 → Event.compressCall f.path ∈ tr2)
    ∧ (∀ k, k ∈ keysOf st2.compressed_cache → k ∈ keysOf st.compressed_cache ∨ k ∈ keysOf es)
    ∧ (List.Nodup (keysOf st.compressed_cache) → List.Nodup (keysOf st2.compressed_cache))
    ∧ ((sizeSum st.compressed_cache ≤ st.compressed_max_bytes ∨ st.compressed_cache.length ≤ 1) →
        (sizeSum st2.compressed_cache ≤ st.compressed_max_bytes ∨ st2.compressed_cache.length ≤ 1))
    ∧ (∀ p v, p < w.nextId → p ∉ pathsOf es → p ∉ pathsOf st.compressed_cache →
        w.lookup p = some v → w2.lookup p = some v)
    ∧ (∀ p, Event.destroyCall p ∈ tr2 → Event.destroyCall p ∈ tr
        ∨ p ∈ pathsOf es ∨ p ∈ pathsOf st.compressed_cache ∨ w.nextId ≤ p)
    ∧ ((∀ f ∈ st.compressed_cache, f.path < w.nextId) →
        ∀ f ∈ st2.compressed_cache, f.path < w2.nextId)
    ∧ (∀ p2, p2 ∈ pathsOf st2.compressed_cache →
        p2 ∈ pathsOf st.compressed_cache ∨ w.nextId ≤ p2)
    ∧ ((List.Nodup (keysOf es) ∧ (∀ k ∈ keysOf es, k ∉ keysOf st.compressed_cache)) →
        ∀ k, k ∈ keysOf es2 → k ∉ keysOf st2.compressed_cache) := by
  intro es
  induction es with
  | nil =>
    intro st w tr es2 st2 w2 tr2 x h
    simp only [lruEvict, Prod.mk.injEq] at h
    obtain ⟨rfl, ⟨rfl, rfl, rfl⟩, rfl⟩ := h
    refine ⟨rfl, rfl, rfl, rfl, Nat.le_refl _, ⟨[], by simp, by simp⟩,
      ?_, ?_, ?_, ?_, ?_, ?_, ?_, ?_, ?_⟩
    · intro _ f hf; cases hf
    · intro k hk; exact Or.inl hk
    · intro hnd; exact hnd
    · intro hc; exact hc
    · intro p v _ _ _ hl; exact hl
    · intro p hp; exact Or.inl hp
    · intro hb; exact hb
    · intro p2 hp2; exact Or.inl hp2
    · intro hd k hk; exact hd.2 k hk
  | cons e rest ih =>
    intro st w tr es2 st2 w2 tr2 x h
    simp only [lruEvict] at h
    split at h
    · rename_i hcond
      rcases hfe : CTagsCache.clearUncompressedEntry env (st, w, tr) e with ⟨⟨stm, wm, trm⟩, x1⟩
      rw [hfe] at h
      obtain ⟨hcb1, hcb2, hcb3, hcb4, hcb5, ⟨d1, hd1, hd1ev⟩, hcb7, hcb8, hcb9, hcb10,
        hcb11, hcb12, hcb13, hcb14⟩ := hotCB_facts env hfe
      cases x1 with
      | none =>
        obtain ⟨hi1, hi2, hi3, hi4, hi5, ⟨d2, hd2, hd2ev⟩, hi7, hi8, hi9, hi10,
          hi11, hi12, hi13, hi14, hi15⟩ := ih h
        refine ⟨hi1.trans hcb1, hi2.trans hcb2, hi3.trans hcb3, hi4.trans hcb4,
          Nat.le_trans hcb5 hi5, ?_, ?_, ?_, ?_, ?_, ?_, ?_, ?_, ?_, ?_⟩
        · refine ⟨d1 ++ d2, by rw [hd2, hd1, List.append_assoc], ?_⟩
          intro ev hev
          rcases List.mem_append.mp hev with h1 | h2
          · exact hd1ev ev h1
          · exact hd2ev ev h2
        · intro hc0 f hf hnf
          rcases List.mem_cons.mp hf with rfl | hf2
          · have : Event.compressCall f.path ∈ trm := hcb7 hc0
            rw [hd2]
            exact List.mem_append_left _ this
          · exact hi7 (hcb4.trans hc0) f hf2 hnf
        · intro k hk
          rcases hi8 k hk with h1 | h2
          · rcases hcb8 k h1 with h3 | h4
            · exact Or.inl h3
            · right; rw [keysOf_cons]; exact List.mem_cons.mpr (Or.inl h4)
          · right; rw [keysOf_cons]; exact List.mem_cons.mpr (Or.inr h2)
        · intro hnd
          exact hi9 (hcb9 hnd)
        · intro hc
          have hm := hcb10 hc
          rw [← hcb3] at hm ⊢
          exact hi10 hm
        · intro p v hplt hpes hpc hl
          have hpe : p ≠ e.path := by
            intro hcon
            exact hpes (by rw [pathsOf_cons, hcon]; exact List.mem_cons_self _ _)
          have hprest : p ∉ pathsOf rest := by
            intro hcon
            exact hpes (by rw [pathsOf_cons]; exact List.mem_cons_of_mem _ hcon)
          have hpcm : p ∉ pathsOf stm.compressed_cache := by
            intro hcon
            rcases hcb14 p hcon with h1 | h2
            · exact hpc h1
            · omega
          exact hi11 p v (Nat.lt_of_lt_of_le hplt hcb5) hprest hpcm
            (hcb11 p v hplt hpe hpc hl)
        · intro p hp
          rcases hi12 p hp with h1 | h2 | h3 | h4
          · rcases hcb12 p h1 with h5 | h6 | h7 | h8
            · exact Or.inl h5
            · right; left; rw [pathsOf_cons, h6]; exact List.mem_cons_self _ _
            · exact Or.inr (Or.inr (Or.inl h7))
            · exact Or.inr (Or.inr (Or.inr h8))
          · right; left; rw [pathsOf_cons]; exact List.mem_cons_of_mem _ h2
          · rcases hcb14 p h3 with h5 | h6
            · exact Or.inr (Or.inr (Or.inl h5))
            · exact Or.inr (Or.inr (Or.inr h6))
          · exact Or.inr (Or.inr (Or.inr (Nat.le_trans hcb5 h4)))
        · intro hb
          exact hi13 (hcb13 hb)
        · intro p2 hp2
          rcases hi14 p2 hp2 with h1 | h2
          · rcases hcb14 p2 h1 with h3 | h4
            · exact Or.inl h3
            · exact Or.inr h4
          · exact Or.inr (Nat.le_trans hcb5 h2)
        · intro hd k hk
          obtain ⟨hnde, hdisj⟩ := hd
          rw [keysOf_cons, List.nodup_cons] at hnde
          refine hi15 ⟨hnde.2, ?_⟩ k hk
          intro k2 hk2 hk2m
          rcases hcb8 k2 hk2m with h1 | h2
          · exact hdisj k2 (by rw [keysOf_cons]; exact List.mem_cons_of_mem _ hk2) h1
          · exact hnde.1 (h2 ▸ hk2)
      | some x1p =>
        simp only [Prod.mk.injEq] at h
        obtain ⟨rfl, ⟨rfl, rfl, rfl⟩, rfl⟩ := h
        refine ⟨hcb1, hcb2, hcb3, hcb4, hcb5, ⟨d1, hd1, hd1ev⟩, ?_, ?_, ?_, ?_, ?_, ?_,
          hcb13, hcb14, ?_⟩
        · intro hc0 f hf hnf
          rcases List.mem_cons.mp hf with rfl | hf2
          · exact hcb7 hc0
          · exact absurd hf2 hnf
        · intro k hk
          rcases hcb8 k hk with h1 | h2
          · exact Or.inl h1
          · right; rw [keysOf_cons]; exact List.mem_cons.mpr (Or.inl h2)
        · exact hcb9
        · exact hcb10
        · intro p v hplt hpes hpc hl
          have hpe : p ≠ e.path := by
            intro hcon
            exact hpes (by rw [pathsOf_cons, hcon]; exact List.mem_cons_self _ _)
          exact hcb11 p v hplt hpe hpc hl
        · intro p hp
          rcases hcb12 p hp with h1 | h2 | h3 | h4
          · exact Or.inl h1
          · right; left; rw [pathsOf_cons, h2]; exact List.mem_cons_self _ _
          · exact Or.inr (Or.inr (Or.inl h3))
          · exact Or.inr (Or.inr (Or.inr h4))
        · intro hd k hk
          obtain ⟨hnde, hdisj⟩ := hd
          rw [keysOf_cons, List.nodup_cons] at hnde
          intro hkm
          rcases hcb8 k hkm with h1 | h2
          · exact hdisj k (by rw [keysOf_cons]; exact List.mem_cons_of_mem _ hk) h1
          · exact hnde.1 (h2 ▸ hk)
    · simp only [Prod.mk.injEq] at h
      obtain ⟨rfl, ⟨rfl, rfl, rfl⟩, rfl⟩ := h
      refine ⟨rfl, rfl, rfl, rfl, Nat.le_refl _, ⟨[], by simp, by simp⟩,
        ?_, ?_, ?_, ?_, ?_, ?_, ?_, ?_, ?_⟩
      · intro _ f hf hnf; exact absurd hf hnf
      · intro k hk; exact Or.inl hk
      · intro hnd; exact hnd
      · intro hc; exact hc
      · intro p v _ _ _ hl; exact hl
      · intro p hp; exact Or.inl hp
      · intro hb; exact hb
      · intro p2 hp2; exact Or.inl hp2
      · intro hd k hk; exact hd.2 k hk

/-!
Comprehensive description of the shared insert-and-return tail of
get_tagsfile. -/

theorem finishInsert_facts (env : Env) {st : CTagsCache} {w : World} {tr : List Event}
    {rev : String} {q : Nat} {res : Except Exn Nat} {st3 : CTagsCache} {w3 : World}
    {tr3 : List Event}
    (h : CTagsCache.finishInsert env st w tr rev q = (res, st3, w3, tr3)) :
    st3.uncompressed_max_bytes = st.uncompressed_max_bytes
    ∧ st3.compressed_max_bytes = st.compressed_max_bytes
    ∧ st3.clearing = st.clearing
    ∧ w.nextId ≤ w3.nextId
    ∧ (∃ d, tr3 = tr ++ d ++ [Event.releaseLock]
        ∧ ∀ ev ∈ d, ∃ p, ev = Event.compressCall p ∨ ev = Event.destroyCall p)
    ∧ (∃ l2, st3.uncompressed_cache = l2 ++ [⟨rev, q, fileSize env w q⟩]
        ∧ l2 <:+ st.uncompressed_cache.filter (fun y => y.rev != rev))
    ∧ ((∃ xe, res = Except.error xe) ∨ res = Except.ok q)
    ∧ (res = Except.ok q →
        (sizeSum st3.uncompressed_cache ≤ st.uncompressed_max_bytes
          ∨ st3.uncompressed_cache.length ≤ 1))
    ∧ (∀ k, k ∈ keysOf st3.compressed_cache →
        k ∈ keysOf st.compressed_cache ∨ k ∈ keysOf st.uncompressed_cache ∨ k = rev)
    ∧ (List.Nodup (keysOf st.compressed_cache) → List.Nodup (keysOf st3.compressed_cache))
    ∧ ((sizeSum st.compressed_cache ≤ st.compressed_max_bytes ∨ st.compressed_cache.length ≤ 1) →
        (sizeSum st3.compressed_cache ≤ st.compressed_max_bytes
          ∨ st3.compressed_cache.length ≤ 1))
    ∧ (∀ p v, p < w.nextId → p ∉ pathsOf st.uncompressed_cache → p ≠ q →
        p ∉ pathsOf st.compressed_cache → w.lookup p = some v → w3.lookup p = some v)
    ∧ (∀ p, Event.destroyCall p ∈ tr3 → Event.destroyCall p ∈ tr
        ∨ p ∈ pathsOf st.uncompressed_cache ∨ p = q
        ∨ p ∈ pathsOf st.compressed_cache ∨ w.nextId ≤ p)
    ∧ (st.clearing = false → ∀ f ∈ st.uncompressed_cache, f ∉ st3.uncompressed_cache →
        f.rev ≠ rev → Event.compressCall f.path ∈ tr3)
    ∧ ((List.Nodup (keysOf st.uncompressed_cache) ∧ List.Nodup (keysOf st.compressed_cache)
          ∧ rev ∉ keysOf st.compressed_cache
          ∧ (∀ k, k ∈ keysOf st.uncompressed_cache → k ∉ keysOf st.compressed_cache)) →
        ∀ k, k ∈ keysOf st3.uncompressed_cache → k ∉ keysOf st3.compressed_cache)
    ∧ rev ∈ keysOf st3.uncompressed_cache
    ∧ q ∈ pathsOf st3.uncompressed_cache
    ∧ ((∀ f ∈ st.compressed_cache, f.path < w.nextId) →
        ∀ f ∈ st3.compressed_cache, f.path < w3.nextId) := by
  rw [CTagsCache.finishInsert] at h
  rcases hloop : lruInsert st.uncompressed_max_bytes (CTagsCache.clearUncompressedEntry env)
      { rev := rev, path := q, size := fileSize env w q }
      st.uncompressed_cache (st, w, tr) with ⟨ues, ⟨st1, w1, tr1⟩, xl⟩
  rw [hloop] at h
  have hloop2 := hloop
  rw [lruInsert] at hloop2
  obtain ⟨hf1, hf2, hf3, hf4, hf5, ⟨d1, hd1, hd1ev⟩, hf7, hf8, hf9, hf10,
    hf11, hf12, hf13, hf14, hf15⟩ := hotLoop_facts env hloop2
  obtain ⟨l2, hl2, hl2suf⟩ := lruEvict_last hloop2
  have hLkeys : ∀ k, k ∈ keysOf (st.uncompressed_cache.filter (fun y => y.rev != rev)
      ++ [Entry.mk rev q (fileSize env w q)]) →
      k ∈ keysOf st.uncompressed_cache ∨ k = rev := by
    intro k hk
    rw [keysOf_append] at hk
    rcases List.mem_append.mp hk with h1 | h2
    · exact Or.inl ((keysOf_sublist (List.filter_sublist _)).subset h1)
    · simp only [keysOf, List.map_cons, List.map_nil, List.mem_singleton] at h2
      exact Or.inr h2
  have hLpaths : ∀ p, p ∈ pathsOf (st.uncompressed_cache.filter (fun y => y.rev != rev)
      ++ [Entry.mk rev q (fileSize env w q)]) →
      p ∈ pathsOf st.uncompressed_cache ∨ p = q := by
    intro p hp
    rw [pathsOf, List.map_append] at hp
    rcases List.mem_append.mp hp with h1 | h2
    · exact Or.inl ((pathsOf_sublist (List.filter_sublist _)).subset h1)
    · simp only [List.map_cons, List.map_nil, List.mem_singleton] at h2
      exact Or.inr h2
  have hcommon :
      ({ st1 with uncompressed_cache := ues } : CTagsCache).uncompressed_max_bytes
          = st.uncompressed_max_bytes
        ∧ ({ st1 with uncompressed_cache := ues } : CTagsCache).compressed_max_bytes
          = st.compressed_max_bytes
        ∧ ({ st1 with uncompressed_cache := ues } : CTagsCache).clearing = st.clearing :=
    ⟨hf2, hf3, hf4⟩
  cases xl with
  | none =>
    simp only [Prod.mk.injEq] at h
    obtain ⟨rfl, rfl, rfl, rfl⟩ := h
    refine ⟨hcommon.1, hcommon.2.1, hcommon.2.2, hf5, ?_, ⟨l2, hl2, hl2suf⟩, Or.inr rfl,
      ?_, ?_, hf9, hf10, ?_, ?_, ?_, ?_, ?_, ?_, hf13⟩
    · exact ⟨d1, by rw [hd1], hd1ev⟩
    · intro _
      exact lruEvict_cap hloop2
    · intro k hk
      rcases hf8 k hk with h1 | h2
      · exact Or.inl h1
      · rcases hLkeys k h2 with h3 | h4
        · exact Or.inr (Or.inl h3)
        · exact Or.inr (Or.inr h4)
    · intro p v hplt hpes hpq hpc hl
      refine hf11 p v hplt ?_ hpc hl
      intro hcon
      rcases hLpaths p hcon with h1 | h2
      · exact hpes h1
      · exact hpq h2
    · intro p hp
      rcases List.mem_append.mp hp with hp1 | hp2
      · rcases hf12 p hp1 with h1 | h2 | h3 | h4
        · exact Or.inl h1
        · rcases hLpaths p h2 with h5 | h6
          · exact Or.inr (Or.inl h5)
          · exact Or.inr (Or.inr (Or.inl h6))
        · exact Or.inr (Or.inr (Or.inr (Or.inl h3)))
        · exact Or.inr (Or.inr (Or.inr (Or.inr h4)))
      · rcases List.mem_singleton.mp hp2 with hp3
        cases hp3
    · intro hc0 f hf hnf hne
      have hfL : f ∈ st.uncompressed_cache.filter (fun y => y.rev != rev)
          ++ [Entry.mk rev q (fileSize env w q)] :=
        List.mem_append_left _ (mem_filter_rev.mpr ⟨hf, hne⟩)
      exact List.mem_append_left _ (hf7 hc0 f hfL hnf)
    · intro hd k hk
      obtain ⟨hndu, hndc, hrev, hdisj⟩ := hd
      refine hf15 ⟨?_, ?_⟩ k hk
      · have hnf : List.Nodup (keysOf (st.uncompressed_cache.filter (fun y => y.rev != rev))) :=
          List.Nodup.sublist (keysOf_sublist (List.filter_sublist _)) hndu
        rw [keysOf_append]
        simp only [keysOf, List.map_cons, List.map_nil]
        rw [List.nodup_append]
        refine ⟨hnf, List.nodup_singleton _, ?_⟩
        intro a ha hb
        have hab : a = rev := List.mem_singleton.mp hb
        subst hab
        exact not_mem_keysOf_filter st.uncompressed_cache a ha
      · intro k2 hk2
        rcases hLkeys k2 hk2 with h1 | h2
        · exact hdisj k2 h1
        · exact h2 ▸ hrev
    · rw [hl2, keysOf_append]
      exact List.mem_append_right _ (by simp [keysOf])
    · rw [hl2, pathsOf, List.map_append]
      exact List.mem_append_right _ (by simp)
  | some xe =>
    simp only [Prod.mk.injEq] at h
    obtain ⟨rfl, rfl, rfl, rfl⟩ := h
    refine ⟨hcommon.1, hcommon.2.1, hcommon.2.2, hf5, ?_, ⟨l2, hl2, hl2suf⟩,
      Or.inl ⟨xe, rfl⟩, ?_, ?_, hf9, hf10, ?_, ?_, ?_, ?_, ?_, ?_, hf13⟩
    · exact ⟨d1, by rw [hd1], hd1ev⟩
    · intro hcon; cases hcon
    · intro k hk
      rcases hf8 k hk with h1 | h2
      · exact Or.inl h1
      · rcases hLkeys k h2 with h3 | h4
        · exact Or.inr (Or.inl h3)
        · exact Or.inr (Or.inr h4)
    · intro p v hplt hpes hpq hpc hl
      refine hf11 p v hplt ?_ hpc hl
      intro hcon
      rcases hLpaths p hcon with h1 | h2
      · exact hpes h1
      · exact hpq h2
    · intro p hp
      rcases List.mem_append.mp hp with hp1 | hp2
      · rcases hf12 p hp1 with h1 | h2 | h3 | h4
        · exact Or.inl h1
        · rcases hLpaths p h2 with h5 | h6
          · exact Or.inr (Or.inl h5)
          · exact Or.inr (Or.inr (Or.inl h6))
        · exact Or.inr (Or.inr (Or.inr (Or.inl h3)))
        · exact Or.inr (Or.inr (Or.inr (Or.inr h4)))
      · rcases List.mem_singleton.mp hp2 with hp3
        cases hp3
    · intro hc0 f hf hnf hne
      have hfL : f ∈ st.uncompressed_cache.filter (fun y => y.rev != rev)
          ++ [Entry.mk rev q (fileSize env w q)] :=
        List.mem_append_left _ (mem_filter_rev.mpr ⟨hf, hne⟩)
      exact List.mem_append_left _ (hf7 hc0 f hfL hnf)
    · intro hd k hk
      obtain ⟨hndu, hndc, hrev, hdisj⟩ := hd
      refine hf15 ⟨?_, ?_⟩ k hk
      · have hnf : List.Nodup (keysOf (st.uncompressed_cache.filter (fun y => y.rev != rev))) :=
          List.Nodup.sublist (keysOf_sublist (List.filter_sublist _)) hndu
        rw [keysOf_append]
        simp only [keysOf, List.map_cons, List.map_nil]
        rw [List.nodup_append]
        refine ⟨hnf, List.nodup_singleton _, ?_⟩
        intro a ha hb
        have hab : a = rev := List.mem_singleton.mp hb
        subst hab
        exact not_mem_keysOf_filter st.uncompressed_cache a ha
      · intro k2 hk2
        rcases hLkeys k2 hk2 with h1 | h2
        · exact hdisj k2 h1
        · exact h2 ▸ hrev
    · rw [hl2, keysOf_append]
      exact List.mem_append_right _ (by simp [keysOf])
    · rw [hl2, pathsOf, List.map_append]
      exact List.mem_append_right _ (by simp)

/-!
Lemmas about lookup and reordering in a sector. -/

theorem lruGet_none_iff {k : String} {es : List Entry} :
    lruGet k es = none ↔ k ∉ keysOf es := by
  constructor
  · intro h hk
    rcases mem_keysOf.mp hk with ⟨e, he, hrev⟩
    rw [lruGet] at h
    rcases hf : es.find? (fun x => x.rev == k) with _ | e2
    · exact (List.find?_eq_none.mp hf e he) (by simp [hrev])
    · simp only [hf] at h
      cases h
  · intro hk
    rw [lruGet]
    rcases hf : es.find? (fun x => x.rev == k) with _ | e2
    · simp only [hf]
    · exfalso
      have he2 := List.mem_of_find?_eq_some hf
      have hrev : e2.rev = k := by
        have := List.find?_some hf
        simpa using this
      exact hk (mem_keysOf.mpr ⟨e2, he2, hrev⟩)

theorem lruGet_some_spec {k : String} {es : List Entry} {p : Nat} {es2 : List Entry}
    (h : lruGet k es = some (p, es2)) :
    ∃ e, es.find? (fun x => x.rev == k) = some e ∧ e ∈ es ∧ e.rev = k ∧ e.path = p
      ∧ es2 = es.filter (fun y => y.rev != k) ++ [e] := by
  rw [lruGet] at h
  rcases hf : es.find? (fun x => x.rev == k) with _ | e
  · simp only [hf] at h
    cases h
  · simp only [hf, Option.some.injEq, Prod.mk.injEq] at h
    refine ⟨e, hf, List.mem_of_find?_eq_some hf, ?_, h.1, h.2.symm⟩
    have := List.find?_some hf
    simpa using this

theorem sizeSum_reorder_le {k : String} {es : List Entry} {e : Entry}
    (hf : es.find? (fun x => x.rev == k) = some e) :
    sizeSum (es.filter (fun y => y.rev != k) ++ [e]) ≤ sizeSum es := by
  induction es with
  | nil => cases hf
  | cons a rest ih =>
    by_cases ha : (a.rev == k) = true
    · simp only [List.find?_cons, ha] at hf
      have hae : a = e := by injection hf
      subst hae
      have hak : a.rev = k := by simpa using ha
      have hbne : (a.rev != k) = false := by simp [hak]
      rw [List.filter_cons, hbne]
      simp only [Bool.false_eq_true, if_false]
      rw [sizeSum_append, sizeSum_cons]
      have hle := sizeSum_sublist_le (List.filter_sublist
        (l := rest) (p := fun y => y.rev != k))
      rw [sizeSum_cons, sizeSum_nil]
      omega
    · have ha2 : (a.rev == k) = false := by
        revert ha; cases (a.rev == k) <;> simp
      simp only [List.find?_cons, ha2] at hf
      have hbne : (a.rev != k) = true := by
        simp only [bne_iff_ne, ne_eq]
        intro hcon
        rw [hcon] at ha2
        simp at ha2
      rw [List.filter_cons, hbne]
      simp only [if_true]
      rw [List.cons_append, sizeSum_cons, sizeSum_cons]
      have := ih hf
      omega

theorem reorder_length_le_one {k : String} {es : List Entry} {e : Entry}
    (hf : es.find? (fun x => x.rev == k) = some e) (hlen : es.length ≤ 1) :
    (es.filter (fun y => y.rev != k) ++ [e]).length ≤ 1 := by
  cases es with
  | nil => cases hf
  | cons a rest =>
    cases rest with
    | cons b r2 => simp at hlen
    | nil =>
      by_cases ha : (a.rev == k) = true
      · simp only [List.find?_cons, ha] at hf
        have hae : a = e := by injection hf
        subst hae
        have hak : a.rev = k := by simpa using ha
        have hbne : (a.rev != k) = false := by simp [hak]
        rw [List.filter_cons, hbne]
        simp
      · have ha2 : (a.rev == k) = false := by
          revert ha; cases (a.rev == k) <;> simp
        simp only [List.find?_cons, ha2, List.find?_nil] at hf
        cases hf

theorem lruGet_keys_mem {k : String} {es : List Entry} {p : Nat} {es2 : List Entry}
    (h : lruGet k es = some (p, es2)) :
    ∀ k2, k2 ∈ keysOf es2 → k2 ∈ keysOf es := by
  obtain ⟨e, hf, he, hrev, hp, hes2⟩ := lruGet_some_spec h
  intro k2 hk2
  rw [hes2, keysOf_append] at hk2
  rcases List.mem_append.mp hk2 with h1 | h2
  · exact (keysOf_sublist (List.filter_sublist _)).subset h1
  · simp only [keysOf, List.map_cons, List.map_nil, List.mem_singleton] at h2
    exact mem_keysOf.mpr ⟨e, he, h2 ▸ rfl⟩

theorem lruGet_keys_nodup {k : String} {es : List Entry} {p : Nat} {es2 : List Entry}
    (h : lruGet k es = some (p, es2)) (hnd : List.Nodup (keysOf es)) :
    List.Nodup (keysOf es2) := by
  obtain ⟨e, hf, he, hrev, hp, hes2⟩ := lruGet_some_spec h
  rw [hes2, keysOf_append]
  simp only [keysOf, List.map_cons, List.map_nil]
  rw [List.nodup_append]
  refine ⟨List.Nodup.sublist (keysOf_sublist (List.filter_sublist _)) hnd,
    List.nodup_singleton _, ?_⟩
  intro a ha hb
  have hab : a = e.rev := List.mem_singleton.mp hb
  subst hab
  rw [hrev] at ha
  exact not_mem_keysOf_filter es k ha

theorem filter_rev_idem (es : List Entry) (k : String) :
    (es.filter (fun y => y.rev != k)).filter (fun y => y.rev != k)
      = es.filter (fun y => y.rev != k) := by
  induction es with
  | nil => rfl
  | cons a rest ih =>
    rw [List.filter_cons]
    by_cases ha : (a.rev != k) = true
    · rw [if_pos ha, List.filter_cons, if_pos ha, ih]
    · rw [if_neg ha, ih]

theorem lruRemove_reorder {k : String} {es : List Entry} {p : Nat} {es2 : List Entry}
    (h : lruGet k es = some (p, es2)) :
    lruRemove k es2 = es.filter (fun y => y.rev != k) := by
  obtain ⟨e, hf, he, hrev, hp, hes2⟩ := lruGet_some_spec h
  rw [hes2, lruRemove, List.filter_append, filter_rev_idem]
  have hbne : (e.rev != k) = false := by simp [hrev]
  rw [List.filter_cons, hbne]
  simp

/-!
The newly inserted (most-recently-used) entry is never the eviction victim, so
its backing file survives the insertion. -/

theorem hotLoop_lookup_last (env : Env) {cap : Nat} :
    ∀ {l : List Entry} {e : Entry} {st : CTagsCache} {w : World} {tr : List Event}
      {es2 : List Entry} {st2 : CTagsCache} {w2 : World} {tr2 : List Event} {x : Option Exn},
    lruEvict cap (CTagsCache.clearUncompressedEntry env) (l ++ [e]) (st, w, tr)
      = (es2, (st2, w2, tr2), x) →
    e.path < w.nextId → e.path ∉ pathsOf l → e.path ∉ pathsOf st.compressed_cache →
    ∀ v, w.lookup e.path = some v → w2.lookup e.path = some v := by
  intro l
  induction l with
  | nil =>
    intro e st w tr es2 st2 w2 tr2 x h hlt hnl hnc v hl
    simp only [List.nil_append, lruEvict] at h
    split at h
    · rename_i hcond
      exact absurd rfl hcond.2
    · simp only [Prod.mk.injEq] at h
      obtain ⟨rfl, ⟨rfl, rfl, rfl⟩, rfl⟩ := h
      exact hl
  | cons a l ih =>
    intro e st w tr es2 st2 w2 tr2 x h hlt hnl hnc v hl
    simp only [List.cons_append, lruEvict] at h
    split at h
    · rcases hfe : CTagsCache.clearUncompressedEntry env (st, w, tr) a with ⟨⟨stm, wm, trm⟩, x1⟩
      rw [hfe] at h
      obtain ⟨hcb1, hcb2, hcb3, hcb4, hcb5, hcb6, hcb7, hcb8, hcb9, hcb10,
        hcb11, hcb12, hcb13, hcb14⟩ := hotCB_facts env hfe
      have hna : e.path ≠ a.path := by
        intro hcon
        exact hnl (by rw [pathsOf_cons, hcon]; exact List.mem_cons_self _ _)
      have hnl2 : e.path ∉ pathsOf l := by
        intro hcon
        exact hnl (by rw [pathsOf_cons]; exact List.mem_cons_of_mem _ hcon)
      have hmid := hcb11 e.path v hlt hna hnc hl
      cases x1 with
      | none =>
        have hncm : e.path ∉ pathsOf stm.compressed_cache := by
          intro hcon
          rcases hcb14 e.path hcon with h1 | h2
          · exact hnc h1
          · omega
        exact ih h (Nat.lt_of_lt_of_le hlt hcb5) hnl2 hncm v hmid
      | some y =>
        simp only [Prod.mk.injEq] at h
        obtain ⟨rfl, ⟨rfl, rfl, rfl⟩, rfl⟩ := h
        exact hmid
    · simp only [Prod.mk.injEq] at h
      obtain ⟨rfl, ⟨rfl, rfl, rfl⟩, rfl⟩ := h
      exact hl

theorem finishInsert_keep_q (env : Env) {st : CTagsCache} {w : World} {tr : List Event}
    {rev : String} {q : Nat} {res : Except Exn Nat} {st3 : CTagsCache} {w3 : World}
    {tr3 : List Event}
    (h : CTagsCache.finishInsert env st w tr rev q = (res, st3, w3, tr3))
    (hq : q < w.nextId) (hqh : q ∉ pathsOf st.uncompressed_cache)
    (hqc : q ∉ pathsOf st.compressed_cache) {v : TagsFile} (hl : w.lookup q = some v) :
    w3.lookup q = some v := by
  rw [CTagsCache.finishInsert] at h
  rcases hloop : lruInsert st.uncompressed_max_bytes (CTagsCache.clearUncompressedEntry env)
      { rev := rev, path := q, size := fileSize env w q }
      st.uncompressed_cache (st, w, tr) with ⟨ues, ⟨st1, w1, tr1⟩, xl⟩
  rw [hloop] at h
  have hloop2 := hloop
  rw [lruInsert] at hloop2
  have hqf : q ∉ pathsOf (st.uncompressed_cache.filter (fun y => y.rev != rev)) := by
    intro hcon
    exact hqh ((pathsOf_sublist (List.filter_sublist _)).subset hcon)
  have := hotLoop_lookup_last env hloop2 hq hqf hqc v hl
  cases xl with
  | none =>
    simp only [Prod.mk.injEq] at h
    obtain ⟨rfl, rfl, rfl, rfl⟩ := h
    exact this
  | some xe =>
    simp only [Prod.mk.injEq] at h
    obtain ⟨rfl, rfl, rfl, rfl⟩ := h
    exact this

/-!
Lemmas about clearing the cache. -/

theorem clearUncompressedEntry_clearing (env : Env) (st : CTagsCache) (w : World)
    (tr : List Event) (e : Entry) (hcl : st.clearing = true) :
    CTagsCache.clearUncompressedEntry env (st, w, tr) e
      = ((st, delete_tagsfile w e.path, tr ++ [Event.destroyCall e.path]), none) := by
  simp only [CTagsCache.clearUncompressedEntry, hcl, if_true]

theorem hotClear_facts (env : Env) :
    ∀ {es : List Entry} {st : CTagsCache} {w : World} {tr : List Event}
      {es2 : List Entry} {st2 : CTagsCache} {w2 : World} {tr2 : List Event} {x : Option Exn},
    st.clearing = true →
    lruClear (CTagsCache.clearUncompressedEntry env) es (st, w, tr) = (es2, (st2, w2, tr2), x) →
    st2 = st ∧ x = none ∧ es2 = []
      ∧ (∃ d, tr2 = tr ++ d ∧ ∀ ev ∈ d, ∃ p, ev = Event.destroyCall p) := by
  intro es
  induction es with
  | nil =>
    intro st w tr es2 st2 w2 tr2 x hcl h
    simp only [lruClear, Prod.mk.injEq] at h
    obtain ⟨rfl, ⟨rfl, rfl, rfl⟩, rfl⟩ := h
    exact ⟨rfl, rfl, rfl, ⟨[], by simp, by simp⟩⟩
  | cons e rest ih =>
    intro st w tr es2 st2 w2 tr2 x hcl h
    simp only [lruClear] at h
    rw [clearUncompressedEntry_clearing env st w tr e hcl] at h
    obtain ⟨hst, hx, hes, d, hd, hdev⟩ := ih hcl h
    refine ⟨hst, hx, hes, ⟨Event.destroyCall e.path :: d, by rw [hd]; simp, ?_⟩⟩
    intro ev hev
    rcases List.mem_cons.mp hev with rfl | hev2
    · exact ⟨e.path, rfl⟩
    · exact hdev ev hev2

theorem coldClear_facts :
    ∀ {es : List Entry} {w : World} {tr : List Event}
      {es2 : List Entry} {w2 : World} {tr2 : List Event} {x : Option Exn},
    lruClear CTagsCache.clearCompressedEntry es (w, tr) = (es2, (w2, tr2), x) →
    x = none ∧ es2 = [] ∧ (∃ d, tr2 = tr ++ d ∧ ∀ ev ∈ d, ∃ p, ev = Event.destroyCall p) := by
  intro es
  induction es with
  | nil =>
    intro w tr es2 w2 tr2 x h
    simp only [lruClear, Prod.mk.injEq] at h
    obtain ⟨rfl, ⟨rfl, rfl⟩, rfl⟩ := h
    exact ⟨rfl, rfl, ⟨[], by simp, by simp⟩⟩
  | cons e rest ih =>
    intro w tr es2 w2 tr2 x h
    simp only [lruClear, clearCompressedEntry_eq] at h
    obtain ⟨hx, hes, d, hd, hdev⟩ := ih h
    refine ⟨hx, hes, ⟨Event.destroyCall e.path :: d, by rw [hd]; simp, ?_⟩⟩
    intro ev hev
    rcases List.mem_cons.mp hev with rfl | hev2
    · exact ⟨e.path, rfl⟩
    · exact hdev ev hev2

theorem clear_facts (env : Env) (st : CTagsCache) (w : World) :
    ∃ w2 d, CTagsCache.clear env st w
        = (Except.ok (),
           { st with
              uncompressed_cache := []
              compressed_cache := []
              clearing := false },
           w2, d)
      ∧ ∀ ev ∈ d, ∃ p, ev = Event.destroyCall p := by
  obtain ⟨⟨ues, ⟨stA, wA, trA⟩, xA⟩, hh⟩ :
      ∃ r, lruClear (CTagsCache.clearUncompressedEntry env)
        ({ st with clearing := true } : CTagsCache).uncompressed_cache
        ({ st with clearing := true }, w, []) = r := ⟨_, rfl⟩
  obtain ⟨hstA, hxA, hues, dA, hdA, hdevA⟩ := hotClear_facts env rfl hh
  subst hxA
  subst hstA
  subst hues
  rw [CTagsCache.clear]
  simp only [hh]
  obtain ⟨⟨ces, ⟨wB, trB⟩, xB⟩, hc⟩ :
      ∃ r, lruClear CTagsCache.clearCompressedEntry st.compressed_cache (wA, trA) = r :=
    ⟨_, rfl⟩
  obtain ⟨hxB, hces, dB, hdB, hdevB⟩ := coldClear_facts hc
  subst hxB
  subst hces
  simp only [hc]
  refine ⟨wB, trB, rfl, ?_⟩
  intro ev hev
  rw [hdB, hdA] at hev
  simp only [List.nil_append] at hev
  rcases List.mem_append.mp hev with h1 | h2
  · exact hdevA ev h1
  · exact hdevB ev h2

/-!
Claim theorems. -/

/-- C5 (counterexample): the revision "gggg…g" has length 40 but is not a
hexadecimal identifier (its characters are no digits, and lie outside both
hexadecimal letter ranges), yet get_tagsfile does not fail with the
assertion error: it proceeds, takes the lock and invokes the artifact-creation
collaborator.  Only the length of the revision is validated. -/
theorem claim_C5_counterexample :
    revG.length = 40
    ∧ (∀ ch ∈ revG.data, ¬(ch.isDigit = true
        ∨ ('a' ≤ ch ∧ ch ≤ 'f') ∨ ('A' ≤ ch ∧ ch ≤ 'F')))
    ∧ (CTagsCache.get_tagsfile env1 st0 w0 "repo" revG).1 = Except.ok 0
    ∧ Event.createCall "repo" revG ∈ (CTagsCache.get_tagsfile env1 st0 w0 "repo" revG).2.2.2 :=
  ⟨by decide, by decide, rfl, by decide⟩

/-- C5 (amended): any revision identifier whose length is not 40 is rejected
with the assertion error before the lock is taken and before any cache state
is read or written: the state and the world are returned unchanged and the
event trace is empty, so no lock event and no collaborator call happens.
Hexadecimality is not checked. -/
theorem claim_C5_invalid_key (env : Env) (st : CTagsCache) (w : World)
    (repo rev : String) (hlen : rev.length ≠ 40) :
    CTagsCache.get_tagsfile env st w repo rev
      = (Except.error Exn.assertionError, st, w, []) := by
  rw [CTagsCache.get_tagsfile, if_neg hlen]

/-- C5 (witness): the short revision "deadbeef" is rejected with the cache
untouched and no events emitted. -/
theorem claim_C5_witness :
    ("deadbeef" : String).length ≠ 40
    ∧ CTagsCache.get_tagsfile env1 st1 w1 "repo" "deadbeef"
        = (Except.error Exn.assertionError, st1, w1, []) :=
  ⟨by decide, claim_C5_invalid_key env1 st1 w1 "repo" "deadbeef" (by decide)⟩

/-- C6: when the key is absent from both sectors and the artifact-creation
collaborator fails, get_tagsfile surfaces the creation failure, neither
sector nor the world changes, the trace shows exactly one creation attempt
under the lock (no retry), and a subsequent get_tagsfile for the same key
invokes creation again from scratch (no negative caching). -/
theorem claim_C6_creation_failure (env : Env) (st : CTagsCache) (w : World)
    (repo rev : String) (hlen : rev.length = 40)
    (hhot : rev ∉ keysOf st.uncompressed_cache)
    (hcold : rev ∉ keysOf st.compressed_cache)
    (hcre : env.create repo rev = none) :
    CTagsCache.get_tagsfile env st w repo rev
      = (Except.error Exn.creationFailure, st, w,
         [Event.acquireLock, Event.createCall repo rev, Event.releaseLock])
    ∧ Event.createCall repo rev ∈
        (CTagsCache.get_tagsfile env
          (CTagsCache.get_tagsfile env st w repo rev).2.1
          (CTagsCache.get_tagsfile env st w repo rev).2.2.1 repo rev).2.2.2 := by
  have hu : lruGet rev st.uncompressed_cache = none := lruGet_none_iff.mpr hhot
  have hc : lruGet rev st.compressed_cache = none := lruGet_none_iff.mpr hcold
  have heq : CTagsCache.get_tagsfile env st w repo rev
      = (Except.error Exn.creationFailure, st, w,
         [Event.acquireLock, Event.createCall repo rev, Event.releaseLock]) := by
    rw [CTagsCache.get_tagsfile, if_pos hlen]
    simp only [hu, hc, create_tagsfile_none hcre]
  refine ⟨heq, ?_⟩
  simp only [heq]
  simp

/-- C6 (witness): with env1 the creation of revC fails; the call on the
populated cache st1 surfaces the failure without touching anything and the
follow-up call attempts creation again. -/
theorem claim_C6_witness :
    CTagsCache.get_tagsfile env1 st1 w1 "repo" revC
      = (Except.error Exn.creationFailure, st1, w1,
         [Event.acquireLock, Event.createCall "repo" revC, Event.releaseLock])
    ∧ Event.createCall "repo" revC ∈
        (CTagsCache.get_tagsfile env1
          (CTagsCache.get_tagsfile env1 st1 w1 "repo" revC).2.1
          (CTagsCache.get_tagsfile env1 st1 w1 "repo" revC).2.2.1 "repo" revC).2.2.2 :=
  claim_C6_creation_failure env1 st1 w1 "repo" revC (by decide) (by decide) (by decide) rfl

/-- C4 (counterexample): clear mutates the cache (it empties a nonempty
uncompressed sector and destroys the entry) while its event trace contains no
lock-acquire event at all: clear never takes the cache lock. -/
theorem claim_C4_counterexample :
    (CTagsCache.clear env1 st2 w2).2.1 ≠ st2
    ∧ Event.acquireLock ∉ (CTagsCache.clear env1 st2 w2).2.2.2
    ∧ Event.destroyCall 0 ∈ (CTagsCache.clear env1 st2 w2).2.2.2 := by
  refine ⟨by decide, by decide, by decide⟩

/-- C4 (amended): get_tagsfile validates the key before taking the lock (an
invalid key produces no events at all); for a valid key its whole event trace
is one lock acquisition, then collaborator work containing no lock events,
then exactly one release, on success and failure alike.  clear, however,
emits no lock events whatsoever: it mutates cache state without the lock. -/
theorem claim_C4_locking (env : Env) (st : CTagsCache) (w : World) (repo rev : String) :
    (rev.length ≠ 40 → (CTagsCache.get_tagsfile env st w repo rev).2.2.2 = [])
    ∧ (rev.length = 40 → ∃ mid, (CTagsCache.get_tagsfile env st w repo rev).2.2.2
          = Event.acquireLock :: mid ++ [Event.releaseLock]
        ∧ ∀ ev ∈ mid, ev ≠ Event.acquireLock ∧ ev ≠ Event.releaseLock)
    ∧ (∀ ev ∈ (CTagsCache.clear env st w).2.2.2,
        ev ≠ Event.acquireLock ∧ ev ≠ Event.releaseLock) := by
  refine ⟨?_, ?_, ?_⟩
  · intro hlen
    rw [CTagsCache.get_tagsfile, if_neg hlen]
  · intro hlen
    obtain ⟨⟨res, st2, w2, tr⟩, hg⟩ :
        ∃ r, CTagsCache.get_tagsfile env st w repo rev = r := ⟨_, rfl⟩
    rw [hg]
    rw [CTagsCache.get_tagsfile, if_pos hlen] at hg
    rcases hu : lruGet rev st.uncompressed_cache with _ | ⟨pp, ues⟩
    · simp only [hu] at hg
      rcases hc : lruGet rev st.compressed_cache with _ | ⟨pp, ces⟩
      · simp only [hc] at hg
        rcases hcr : create_tagsfile env w repo rev with xe | ⟨w1, q⟩
        · simp only [hcr, Prod.mk.injEq] at hg
          obtain ⟨-, -, -, rfl⟩ := hg
          refine ⟨[Event.createCall repo rev], rfl, ?_⟩
          intro ev hev
          rcases List.mem_singleton.mp hev with rfl
          exact ⟨by simp, by simp⟩
        · simp only [hcr] at hg
          obtain ⟨-, -, -, -, ⟨d, hd, hdev⟩, -⟩ := finishInsert_facts env hg
          refine ⟨Event.createCall repo rev :: d, by rw [hd]; simp, ?_⟩
          intro ev hev
          rcases List.mem_cons.mp hev with rfl | hev2
          · exact ⟨by simp, by simp⟩
          · rcases hdev ev hev2 with ⟨p2, hp2 | hp2⟩ <;> subst hp2 <;> exact ⟨by simp, by simp⟩
      · simp only [hc] at hg
        rcases hun : uncompress_tagsfile env w pp with xe | ⟨w1, q⟩
        · simp only [hun, Prod.mk.injEq] at hg
          obtain ⟨-, -, -, rfl⟩ := hg
          refine ⟨[Event.decompressCall pp], rfl, ?_⟩
          intro ev hev
          rcases List.mem_singleton.mp hev with rfl
          exact ⟨by simp, by simp⟩
        · simp only [hun] at hg
          obtain ⟨-, -, -, -, ⟨d, hd, hdev⟩, -⟩ := finishInsert_facts env hg
          refine ⟨Event.decompressCall pp :: d, by rw [hd]; simp, ?_⟩
          intro ev hev
          rcases List.mem_cons.mp hev with rfl | hev2
          · exact ⟨by simp, by simp⟩
          · rcases hdev ev hev2 with ⟨p2, hp2 | hp2⟩ <;> subst hp2 <;> exact ⟨by simp, by simp⟩
    · simp only [hu, Prod.mk.injEq] at hg
      obtain ⟨-, -, -, rfl⟩ := hg
      exact ⟨[], rfl, by simp⟩
  · obtain ⟨w2, d, hclr, hdev⟩ := clear_facts env st w
    rw [hclr]
    intro ev hev
    rcases hdev ev hev with ⟨p2, rfl⟩
    exact ⟨by simp, by simp⟩

/-- C4 (witness): a concrete promotion-heavy get_tagsfile call has the
lock-bracketed trace shape, and a concrete clear emits no lock events. -/
theorem claim_C4_witness :
    (∃ mid, (CTagsCache.get_tagsfile env1 st1 w1 "repo" revA).2.2.2
        = Event.acquireLock :: mid ++ [Event.releaseLock]
      ∧ ∀ ev ∈ mid, ev ≠ Event.acquireLock ∧ ev ≠ Event.releaseLock)
    ∧ ∀ ev ∈ (CTagsCache.clear env1 st1 w1).2.2.2,
        ev ≠ Event.acquireLock ∧ ev ≠ Event.releaseLock :=
  ⟨(claim_C4_locking env1 st1 w1 "repo" revA).2.1 (by decide),
   (claim_C4_locking env1 st1 w1 "repo" revA).2.2⟩

/-- C2 (amended): any get_tagsfile call that returns normally from a state
satisfying the capacity invariant (each sector within its byte ceiling except
for the documented single-oversized-entry case) re-establishes the invariant:
sectors stay within uncompressed_max_bytes and compressed_max_bytes save when
a sector holds a single oversized entry.  This covers every sequence of
normally-returning calls from the empty cache.  The unrestricted per-sequence
form of the claim is false: a call that raises mid-demotion can leave the
uncompressed sector above its bound with several non-oversized entries, and a
later hit returns normally without restoring it (see the counterexample). -/
theorem claim_C2_capacity (env : Env) (st : CTagsCache) (w : World) (repo rev : String)
    (hcl : st.clearing = false)
    (hhot : sizeSum st.uncompressed_cache ≤ st.uncompressed_max_bytes
      ∨ st.uncompressed_cache.length ≤ 1)
    (hcold : sizeSum st.compressed_cache ≤ st.compressed_max_bytes
      ∨ st.compressed_cache.length ≤ 1)
    {p : Nat} {st2 : CTagsCache} {w2 : World} {tr : List Event}
    (h : CTagsCache.get_tagsfile env st w repo rev = (Except.ok p, st2, w2, tr)) :
    (sizeSum st2.uncompressed_cache ≤ st2.uncompressed_max_bytes
      ∨ st2.uncompressed_cache.length ≤ 1)
    ∧ (sizeSum st2.compressed_cache ≤ st2.compressed_max_bytes
      ∨ st2.compressed_cache.length ≤ 1) := by
  rw [CTagsCache.get_tagsfile] at h
  by_cases hlen : rev.length = 40
  · rw [if_pos hlen] at h
    rcases hu : lruGet rev st.uncompressed_cache with _ | ⟨pp, ues⟩
    · simp only [hu] at h
      rcases hc : lruGet rev st.compressed_cache with _ | ⟨pp, ces⟩
      · simp only [hc] at h
        rcases hcr : create_tagsfile env w repo rev with xe | ⟨w1, q⟩
        · simp only [hcr, Prod.mk.injEq] at h
          exact absurd h.1 (by simp)
        · simp only [hcr] at h
          obtain ⟨hf1, hf2, hf3, hf4, hf5, hf6, hf7, hf8, hf9, hf10, hf11, hf12,
            hf13, hf14, hf15, hf16, hf17, hf18⟩ := finishInsert_facts env h
          have hok : (Except.ok p : Except Exn Nat) = Except.ok q := by
            rcases hf7 with ⟨xe, hxe⟩ | hq2
            · cases hxe
            · exact hq2
          refine ⟨?_, ?_⟩
          · rw [hf1]
            exact hf8 hok
          · rw [hf2]
            exact hf11 hcold
      · simp only [hc] at h
        rcases hun : uncompress_tagsfile env w pp with xe | ⟨w1, q⟩
        · simp only [hun, Prod.mk.injEq] at h
          exact absurd h.1 (by simp)
        · simp only [hun] at h
          obtain ⟨hf1, hf2, hf3, hf4, hf5, hf6, hf7, hf8, hf9, hf10, hf11, hf12,
            hf13, hf14, hf15, hf16, hf17, hf18⟩ := finishInsert_facts env h
          have hok : (Except.ok p : Except Exn Nat) = Except.ok q := by
            rcases hf7 with ⟨xe, hxe⟩ | hq2
            · cases hxe
            · exact hq2
          have hrem : lruRemove rev ces = st.compressed_cache.filter (fun y => y.rev != rev) :=
            lruRemove_reorder hc
          refine ⟨?_, ?_⟩
          · rw [hf1]
            exact hf8 hok
          · rw [hf2]
            refine hf11 ?_
            rw [hrem]
            rcases hcold with h1 | h2
            · left
              exact Nat.le_trans (sizeSum_sublist_le (List.filter_sublist _)) h1
            · right
              exact Nat.le_trans (List.Sublist.length_le (List.filter_sublist _)) h2
    · simp only [hu, Prod.mk.injEq] at h
      obtain ⟨-, rfl, -, -⟩ := h
      obtain ⟨e, hf, he, hrev, hp, hes2⟩ := lruGet_some_spec hu
      refine ⟨?_, hcold⟩
      rcases hhot with h1 | h2
      · left
        rw [hes2]
        exact Nat.le_trans (sizeSum_reorder_le hf) h1
      · right
        rw [hes2]
        exact reorder_length_le_one hf h2
  · rw [if_neg hlen] at h
    simp only [Prod.mk.injEq] at h
    exact absurd h.1 (by simp)

/-- C2 (witness): the promotion scenario call on st1 returns with both sectors
within capacity. -/
theorem claim_C2_witness :
    (sizeSum [Entry.mk revA 2 6] ≤ 10 ∨ ([Entry.mk revA 2 6] : List Entry).length ≤ 1)
    ∧ (sizeSum [Entry.mk revB 3 3] ≤ 100
      ∨ ([Entry.mk revB 3 3] : List Entry).length ≤ 1) :=
  claim_C2_capacity env1 st1 w1 "repo" revA rfl (by decide) (by decide)
    (show CTagsCache.get_tagsfile env1 st1 w1 "repo" revA
      = (Except.ok 2,
         { uncompressed_max_bytes := 10
           compressed_max_bytes := 100
           uncompressed_cache := [Entry.mk revA 2 6]
           compressed_cache := [Entry.mk revB 3 3]
           clearing := false },
         { nextId := 4, files := [(3, ⟨2, true⟩), (2, ⟨1, false⟩), (0, ⟨1, true⟩)] },
         [Event.acquireLock, Event.decompressCall 0, Event.compressCall 1,
          Event.destroyCall 1, Event.releaseLock]) from rfl)

/-- C2 (counterexample): a four-call sequence from the empty 10-byte cache:
three misses of sizes 4, 4 and 8 fill the hot sector to 16, the third call
evicts revA whose demotion fails in the codec, aborting the call with the hot
sector at 12 bytes; the fourth call, a plain hit on revB, then RETURNS
normally (ok) with the uncompressed sector still at 12 > 10 bytes over two
entries of sizes 8 and 4, neither of which alone exceeds the capacity, so the
single-oversized-entry exception does not apply: the per-sequence capacity
claim is false as stated. -/
theorem claim_C2_counterexample :
    CTagsCache.get_tagsfile env3 st0 w0 "repo" revA
      = (Except.ok 0,
         { uncompressed_max_bytes := 10
           compressed_max_bytes := 100
           uncompressed_cache := [Entry.mk revA 0 4]
           compressed_cache := []
           clearing := false },
         { nextId := 1, files := [(0, ⟨11, false⟩)] },
         [Event.acquireLock, Event.createCall "repo" revA, Event.releaseLock])
    ∧ CTagsCache.get_tagsfile env3
        { uncompressed_max_bytes := 10
          compressed_max_bytes := 100
          uncompressed_cache := [Entry.mk revA 0 4]
          compressed_cache := []
          clearing := false }
        { nextId := 1, files := [(0, ⟨11, false⟩)] } "repo" revB
      = (Except.ok 1,
         { uncompressed_max_bytes := 10
           compressed_max_bytes := 100
           uncompressed_cache := [Entry.mk revA 0 4, Entry.mk revB 1 4]
           compressed_cache := []
           clearing := false },
         { nextId := 2, files := [(1, ⟨12, false⟩), (0, ⟨11, false⟩)] },
         [Event.acquireLock, Event.createCall "repo" revB, Event.releaseLock])
    ∧ CTagsCache.get_tagsfile env3
        { uncompressed_max_bytes := 10
          compressed_max_bytes := 100
          uncompressed_cache := [Entry.mk revA 0 4, Entry.mk revB 1 4]
          compressed_cache := []
          clearing := false }
        { nextId := 2, files := [(1, ⟨12, false⟩), (0, ⟨11, false⟩)] } "repo" revG
      = (Except.error Exn.ioError,
         { uncompressed_max_bytes := 10
           compressed_max_bytes := 100
           uncompressed_cache := [Entry.mk revB 1 4, Entry.mk revG 2 8]
           compressed_cache := []
           clearing := false },
         { nextId := 3, files := [(2, ⟨14, false⟩), (1, ⟨12, false⟩), (0, ⟨11, false⟩)] },
         [Event.acquireLock, Event.createCall "repo" revG, Event.compressCall 0,
          Event.releaseLock])
    ∧ (CTagsCache.get_tagsfile env3
        { uncompressed_max_bytes := 10
          compressed_max_bytes := 100
          uncompressed_cache := [Entry.mk revB 1 4, Entry.mk revG 2 8]
          compressed_cache := []
          clearing := false }
        { nextId := 3, files := [(2, ⟨14, false⟩), (1, ⟨12, false⟩), (0, ⟨11, false⟩)] }
        "repo" revB).1 = Except.ok 1
    ∧ (CTagsCache.get_tagsfile env3
        { uncompressed_max_bytes := 10
          compressed_max_bytes := 100
          uncompressed_cache := [Entry.mk revB 1 4, Entry.mk revG 2 8]
          compressed_cache := []
          clearing := false }
        { nextId := 3, files := [(2, ⟨14, false⟩), (1, ⟨12, false⟩), (0, ⟨11, false⟩)] }
        "repo" revB).2.1.uncompressed_max_bytes
      < sizeSum (CTagsCache.get_tagsfile env3
        { uncompressed_max_bytes := 10
          compressed_max_bytes := 100
          uncompressed_cache := [Entry.mk revB 1 4, Entry.mk revG 2 8]
          compressed_cache := []
          clearing := false }
        { nextId := 3, files := [(2, ⟨14, false⟩), (1, ⟨12, false⟩), (0, ⟨11, false⟩)] }
        "repo" revB).2.1.uncompressed_cache
    ∧ (∀ e ∈ (CTagsCache.get_tagsfile env3
        { uncompressed_max_bytes := 10
          compressed_max_bytes := 100
          uncompressed_cache := [Entry.mk revB 1 4, Entry.mk revG 2 8]
          compressed_cache := []
          clearing := false }
        { nextId := 3, files := [(2, ⟨14, false⟩), (1, ⟨12, false⟩), (0, ⟨11, false⟩)] }
        "repo" revB).2.1.uncompressed_cache,
        e.size ≤ (10 : Nat)) :=
  ⟨rfl, rfl, rfl, rfl, by decide, by decide⟩

/-- C3: a get_tagsfile call from a well-formed state (no duplicate keys within
a sector, and no key in both sectors) leaves the sectors key-disjoint, whether
the call succeeds or raises, and clear leaves both sectors empty, hence
disjoint: no key is ever simultaneously in the uncompressed and the
compressed sector between completed operations. -/
theorem claim_C3_disjoint (env : Env) (st : CTagsCache) (w : World) (repo rev : String)
    (hcl : st.clearing = false)
    (hndh : List.Nodup (keysOf st.uncompressed_cache))
    (hndc : List.Nodup (keysOf st.compressed_cache))
    (hdisj : ∀ k, k ∈ keysOf st.uncompressed_cache → k ∉ keysOf st.compressed_cache)
    {res : Except Exn Nat} {st2 : CTagsCache} {w2 : World} {tr : List Event}
    (h : CTagsCache.get_tagsfile env st w repo rev = (res, st2, w2, tr)) :
    (∀ k, k ∈ keysOf st2.uncompressed_cache → k ∉ keysOf st2.compressed_cache)
    ∧ ∀ r3 st3 w3 tr3, CTagsCache.clear env st w = (r3, st3, w3, tr3) →
        ∀ k, k ∈ keysOf st3.uncompressed_cache → k ∉ keysOf st3.compressed_cache := by
  constructor
  · rw [CTagsCache.get_tagsfile] at h
    by_cases hlen : rev.length = 40
    · rw [if_pos hlen] at h
      rcases hu : lruGet rev st.uncompressed_cache with _ | ⟨pp, ues⟩
      · simp only [hu] at h
        rcases hc : lruGet rev st.compressed_cache with _ | ⟨pp, ces⟩
        · simp only [hc] at h
          rcases hcr : create_tagsfile env w repo rev with xe | ⟨w1, q⟩
          · simp only [hcr, Prod.mk.injEq] at h
            obtain ⟨-, rfl, -, -⟩ := h
            exact hdisj
          · simp only [hcr] at h
            obtain ⟨-, -, -, -, -, -, -, -, -, -, -, -, -, -, hf15, -, -, -⟩ :=
              finishInsert_facts env h
            exact hf15 ⟨hndh, hndc, lruGet_none_iff.mp hc, hdisj⟩
        · simp only [hc] at h
          rcases hun : uncompress_tagsfile env w pp with xe | ⟨w1, q⟩
          · simp only [hun, Prod.mk.injEq] at h
            obtain ⟨-, rfl, -, -⟩ := h
            intro k hk
            intro hkc
            exact hdisj k hk (lruGet_keys_mem hc k hkc)
          · simp only [hun] at h
            obtain ⟨-, -, -, -, -, -, -, -, -, -, -, -, -, -, hf15, -, -, -⟩ :=
              finishInsert_facts env h
            have hrem : lruRemove rev ces
                = st.compressed_cache.filter (fun y => y.rev != rev) :=
              lruRemove_reorder hc
            refine hf15 ⟨hndh, ?_, ?_, ?_⟩
            · rw [hrem]
              exact List.Nodup.sublist (keysOf_sublist (List.filter_sublist _)) hndc
            · rw [hrem]
              exact not_mem_keysOf_filter _ _
            · intro k hk hkc
              rw [hrem] at hkc
              exact hdisj k hk ((keysOf_sublist (List.filter_sublist _)).subset hkc)
      · simp only [hu, Prod.mk.injEq] at h
        obtain ⟨-, rfl, -, -⟩ := h
        intro k hk
        exact hdisj k (lruGet_keys_mem hu k hk)
    · rw [if_neg hlen] at h
      simp only [Prod.mk.injEq] at h
      obtain ⟨-, rfl, -, -⟩ := h
      exact hdisj
  · obtain ⟨w4, d, hclr, -⟩ := clear_facts env st w
    intro r3 st3 w3 tr3 hcc
    rw [hclr] at hcc
    simp only [Prod.mk.injEq] at hcc
    obtain ⟨-, rfl, -, -⟩ := hcc
    intro k hk
    simp [keysOf] at hk

/-- C3 (witness): after promoting revA on st1, revA sits only in the hot
sector and revB only in the cold sector; a clear leaves nothing anywhere. -/
theorem claim_C3_witness :
    (∀ k, k ∈ keysOf [Entry.mk revA 2 6] → k ∉ keysOf [Entry.mk revB 3 3])
    ∧ ∀ r3 st3 w3 tr3, CTagsCache.clear env1 st1 w1 = (r3, st3, w3, tr3) →
        ∀ k, k ∈ keysOf st3.uncompressed_cache → k ∉ keysOf st3.compressed_cache :=
  claim_C3_disjoint env1 st1 w1 "repo" revA rfl (by decide) (by decide) (by decide)
    (show CTagsCache.get_tagsfile env1 st1 w1 "repo" revA
      = (Except.ok 2,
         { uncompressed_max_bytes := 10
           compressed_max_bytes := 100
           uncompressed_cache := [Entry.mk revA 2 6]
           compressed_cache := [Entry.mk revB 3 3]
           clearing := false },
         { nextId := 4, files := [(3, ⟨2, true⟩), (2, ⟨1, false⟩), (0, ⟨1, true⟩)] },
         [Event.acquireLock, Event.decompressCall 0, Event.compressCall 1,
          Event.destroyCall 1, Event.releaseLock]) from rfl)

/-- C1: when the key is in the compressed sector (and not in the uncompressed
one), a successful get_tagsfile returns a handle to a freshly decompressed
file whose logical content equals that of the stored compressed artifact;
afterwards the key is in the uncompressed sector and no longer in the
compressed sector, and every uncompressed entry evicted by this insertion was
demoted (a compression of its file appears in the trace).  The scenario with
hot capacity 10 and two 6-byte entries is the witness below. -/
theorem claim_C1_promotion (env : Env) (st : CTagsCache) (w : World) (repo rev : String)
    (hcl : st.clearing = false)
    (hndh : List.Nodup (keysOf st.uncompressed_cache))
    (hndc : List.Nodup (keysOf st.compressed_cache))
    (hdisj : ∀ k, k ∈ keysOf st.uncompressed_cache → k ∉ keysOf st.compressed_cache)
    (hhot : rev ∉ keysOf st.uncompressed_cache)
    {pp : Nat} {ces : List Entry}
    (hc : lruGet rev st.compressed_cache = some (pp, ces))
    {f : TagsFile} (hf : w.lookup pp = some f)
    (hbh : ∀ e ∈ st.uncompressed_cache, e.path < w.nextId)
    (hbc : ∀ e ∈ st.compressed_cache, e.path < w.nextId)
    {p : Nat} {st2 : CTagsCache} {w2 : World} {tr : List Event}
    (h : CTagsCache.get_tagsfile env st w repo rev = (Except.ok p, st2, w2, tr)) :
    w2.lookup p = some ⟨f.content, false⟩
    ∧ rev ∈ keysOf st2.uncompressed_cache
    ∧ rev ∉ keysOf st2.compressed_cache
    ∧ ∀ e ∈ st.uncompressed_cache, e.rev ∉ keysOf st2.uncompressed_cache →
        Event.compressCall e.path ∈ tr := by
  rw [CTagsCache.get_tagsfile] at h
  by_cases hlen : rev.length = 40
  · rw [if_pos hlen] at h
    have hu : lruGet rev st.uncompressed_cache = none := lruGet_none_iff.mpr hhot
    simp only [hu, hc] at h
    rcases hun : uncompress_tagsfile env w pp with xe | ⟨w1, q⟩
    · simp only [hun, Prod.mk.injEq] at h
      exact absurd h.1 (by simp)
    · simp only [hun] at h
      obtain ⟨f2, hlf2, hfc2, hdf2, hw1, hq⟩ := uncompress_tagsfile_ok hun
      rw [hlf2] at hf
      injection hf with hff
      subst hff
      subst hw1
      subst hq
      obtain ⟨hf1, hf2, hf3, hf4, hf5, hf6, hf7, hf8, hf9, hf10, hf11, hf12,
        hf13, hf14, hf15, hf16, hf17, hf18⟩ := finishInsert_facts env h
      have hpq : p = w.nextId := by
        rcases hf7 with ⟨xe, hxe⟩ | hq2
        · cases hxe
        · injection hq2
      subst hpq
      have hrem : lruRemove rev ces = st.compressed_cache.filter (fun y => y.rev != rev) :=
        lruRemove_reorder hc
      have hwf : List.Nodup (keysOf st.uncompressed_cache)
          ∧ List.Nodup (keysOf (lruRemove rev ces))
          ∧ rev ∉ keysOf (lruRemove rev ces)
          ∧ (∀ k, k ∈ keysOf st.uncompressed_cache → k ∉ keysOf (lruRemove rev ces)) := by
        refine ⟨hndh, ?_, ?_, ?_⟩
        · rw [hrem]
          exact List.Nodup.sublist (keysOf_sublist (List.filter_sublist _)) hndc
        · rw [hrem]
          exact not_mem_keysOf_filter _ _
        · intro k hk hkc
          rw [hrem] at hkc
          exact hdisj k hk ((keysOf_sublist (List.filter_sublist _)).subset hkc)
      refine ⟨?_, hf16, hf15 hwf _ hf16, ?_⟩
      · refine finishInsert_keep_q env h ?_ ?_ ?_ ?_
        · rw [World.alloc_fst_nextId]
          omega
        · intro hcon
          rcases mem_pathsOf.mp hcon with ⟨e, he, hep⟩
          have := hbh e he
          omega
        · intro hcon
          rw [hrem] at hcon
          rcases mem_pathsOf.mp ((pathsOf_sublist (List.filter_sublist _)).subset hcon)
            with ⟨e, he, hep⟩
          have := hbc e he
          omega
        · exact World.lookup_alloc_self w _
      · intro e he hknot
        have hmem : e ∉ st2.uncompressed_cache := by
          intro hmem
          exact hknot (mem_keysOf.mpr ⟨e, hmem, rfl⟩)
        have hner : e.rev ≠ rev := by
          intro hcon
          exact hknot (hcon ▸ hf16)
        exact hf14 hcl e he hmem hner
  · rw [if_neg hlen] at h
    simp only [Prod.mk.injEq] at h
    exact absurd h.1 (by simp)

/-- C1 (witness): the spec scenario: hot holds revB (6 bytes, capacity 10),
cold holds revA; get of revA decompresses content 1 into a fresh uncompressed
file, promotes revA into the hot sector, drops it from cold, and demotes revB
(a compression of path 1 appears in the trace). -/
theorem claim_C1_witness :
    (World.mk 4 [(3, ⟨2, true⟩), (2, ⟨1, false⟩), (0, ⟨1, true⟩)]).lookup 2
        = some ⟨1, false⟩
    ∧ revA ∈ keysOf [Entry.mk revA 2 6]
    ∧ revA ∉ keysOf [Entry.mk revB 3 3]
    ∧ ∀ e ∈ st1.uncompressed_cache, e.rev ∉ keysOf [Entry.mk revA 2 6] →
        Event.compressCall e.path ∈ [Event.acquireLock, Event.decompressCall 0,
          Event.compressCall 1, Event.destroyCall 1, Event.releaseLock] :=
  claim_C1_promotion env1 st1 w1 "repo" revA rfl (by decide) (by decide) (by decide)
    (by decide)
    (show lruGet revA st1.compressed_cache = some (0, [Entry.mk revA 0 3]) from rfl)
    (show w1.lookup 0 = some ⟨1, true⟩ from rfl)
    (by decide) (by decide)
    (show CTagsCache.get_tagsfile env1 st1 w1 "repo" revA
      = (Except.ok 2,
         { uncompressed_max_bytes := 10
           compressed_max_bytes := 100
           uncompressed_cache := [Entry.mk revA 2 6]
           compressed_cache := [Entry.mk revB 3 3]
           clearing := false },
         { nextId := 4, files := [(3, ⟨2, true⟩), (2, ⟨1, false⟩), (0, ⟨1, true⟩)] },
         [Event.acquireLock, Event.decompressCall 0, Event.compressCall 1,
          Event.destroyCall 1, Event.releaseLock]) from rfl)

/-- C9: during a successful promotion the compressed entry is removed without
its eviction callback: no destroy of the compressed file path appears in the
trace and the compressed file itself is still present in the world after the
call (the model takes the specified non-callback remove for the dulwich
internal _remove_node call). -/
theorem claim_C9_remove_without_callback (env : Env) (st : CTagsCache) (w : World)
    (repo rev : String)
    (hcl : st.clearing = false)
    (hhot : rev ∉ keysOf st.uncompressed_cache)
    {pp : Nat} {ces : List Entry}
    (hc : lruGet rev st.compressed_cache = some (pp, ces))
    {f : TagsFile} (hf : w.lookup pp = some f)
    (hppu : pp ∉ pathsOf st.uncompressed_cache)
    (honecopy : ∀ e1 ∈ st.compressed_cache, e1.path = pp → e1.rev = rev)
    (hbh : ∀ e ∈ st.uncompressed_cache, e.path < w.nextId)
    (hbc : ∀ e ∈ st.compressed_cache, e.path < w.nextId)
    {p : Nat} {st2 : CTagsCache} {w2 : World} {tr : List Event}
    (h : CTagsCache.get_tagsfile env st w repo rev = (Except.ok p, st2, w2, tr)) :
    Event.destroyCall pp ∉ tr ∧ w2.lookup pp = some f := by
  rw [CTagsCache.get_tagsfile] at h
  by_cases hlen : rev.length = 40
  · rw [if_pos hlen] at h
    have hu : lruGet rev st.uncompressed_cache = none := lruGet_none_iff.mpr hhot
    simp only [hu, hc] at h
    rcases hun : uncompress_tagsfile env w pp with xe | ⟨w1, q⟩
    · simp only [hun, Prod.mk.injEq] at h
      exact absurd h.1 (by simp)
    · simp only [hun] at h
      obtain ⟨f2, hlf2, hfc2, hdf2, hw1, hq⟩ := uncompress_tagsfile_ok hun
      rw [hlf2] at hf
      injection hf with hff
      subst hff
      subst hw1
      subst hq
      obtain ⟨hf1, hf2, hf3, hf4, hf5, hf6, hf7, hf8, hf9, hf10, hf11, hf12,
        hf13, hf14, hf15, hf16, hf17, hf18⟩ := finishInsert_facts env h
      have hpplt : pp < w.nextId := by
        obtain ⟨e0, hfind, he0, he0rev, he0p, -⟩ := lruGet_some_spec hc
        have := hbc e0 he0
        omega
      have hrem : lruRemove rev ces = st.compressed_cache.filter (fun y => y.rev != rev) :=
        lruRemove_reorder hc
      have hppc : pp ∉ pathsOf (lruRemove rev ces) := by
        intro hcon
        rw [hrem] at hcon
        rcases mem_pathsOf.mp hcon with ⟨e1, he1, he1p⟩
        rcases mem_filter_rev.mp he1 with ⟨he1m, he1ne⟩
        exact he1ne (honecopy e1 he1m he1p)
      constructor
      · intro hdes
        rcases hf13 pp hdes with h1 | h2 | h3 | h4 | h5
        · simp at h1
        · exact hppu h2
        · omega
        · exact hppc h4
        · rw [World.alloc_fst_nextId] at h5
          omega
      · refine hf12 pp f2 ?_ hppu ?_ hppc ?_
        · rw [World.alloc_fst_nextId]
          omega
        · omega
        · rw [World.lookup_alloc_ne w _ (Nat.ne_of_lt hpplt)]
          exact hlf2
  · rw [if_neg hlen] at h
    simp only [Prod.mk.injEq] at h
    exact absurd h.1 (by simp)

/-- C9 (witness): promoting revA from the cold sector of st1 emits no destroy
of the compressed path 0, and the compressed copy of revA is still on disk
after the call. -/
theorem claim_C9_witness :
    Event.destroyCall 0 ∉ [Event.acquireLock, Event.decompressCall 0,
      Event.compressCall 1, Event.destroyCall 1, Event.releaseLock]
    ∧ (World.mk 4 [(3, ⟨2, true⟩), (2, ⟨1, false⟩), (0, ⟨1, true⟩)]).lookup 0
        = some ⟨1, true⟩ :=
  claim_C9_remove_without_callback env1 st1 w1 "repo" revA rfl (by decide)
    (show lruGet revA st1.compressed_cache = some (0, [Entry.mk revA 0 3]) from rfl)
    (show w1.lookup 0 = some ⟨1, true⟩ from rfl)
    (by decide) (by decide) (by decide) (by decide)
    (show CTagsCache.get_tagsfile env1 st1 w1 "repo" revA
      = (Except.ok 2,
         { uncompressed_max_bytes := 10
           compressed_max_bytes := 100
           uncompressed_cache := [Entry.mk revA 2 6]
           compressed_cache := [Entry.mk revB 3 3]
           clearing := false },
         { nextId := 4, files := [(3, ⟨2, true⟩), (2, ⟨1, false⟩), (0, ⟨1, true⟩)] },
         [Event.acquireLock, Event.decompressCall 0, Event.compressCall 1,
          Event.destroyCall 1, Event.releaseLock]) from rfl)

/-- C7: a cache miss whose created tagsfile alone exceeds the uncompressed
capacity is still stored: after a successful call the uncompressed sector
consists exactly of the new entry (capacity was honored only by evicting the
other entries; the new entry itself was not evicted by its own insertion) and
the sector exceeds its byte ceiling. -/
theorem claim_C7_oversized_insert (env : Env) (st : CTagsCache) (w : World)
    (repo rev : String)
    (hhot : rev ∉ keysOf st.uncompressed_cache)
    (hcold : rev ∉ keysOf st.compressed_cache)
    {c : Nat} (hcre : env.create repo rev = some c)
    (hbig : st.uncompressed_max_bytes < env.usize c)
    {p : Nat} {st2 : CTagsCache} {w2 : World} {tr : List Event}
    (h : CTagsCache.get_tagsfile env st w repo rev = (Except.ok p, st2, w2, tr)) :
    st2.uncompressed_cache = [⟨rev, p, env.usize c⟩]
    ∧ st2.uncompressed_max_bytes < sizeSum st2.uncompressed_cache := by
  rw [CTagsCache.get_tagsfile] at h
  by_cases hlen : rev.length = 40
  · rw [if_pos hlen] at h
    have hu : lruGet rev st.uncompressed_cache = none := lruGet_none_iff.mpr hhot
    have hc2 : lruGet rev st.compressed_cache = none := lruGet_none_iff.mpr hcold
    simp only [hu, hc2] at h
    have hcr : create_tagsfile env w repo rev
        = Except.ok ((w.alloc ⟨c, false⟩).1, w.nextId) := by
      unfold create_tagsfile
      rw [hcre]
      exact rfl
    simp only [hcr] at h
    have hfs : fileSize env (w.alloc ⟨c, false⟩).1 w.nextId = env.usize c := by
      simp [fileSize, World.lookup_alloc_self]
    obtain ⟨hf1, hf2, hf3, hf4, hf5, hf6, hf7, hf8, hf9, hf10, hf11, hf12,
      hf13, hf14, hf15, hf16, hf17, hf18⟩ := finishInsert_facts env h
    have hpq : p = w.nextId := by
      rcases hf7 with ⟨xe, hxe⟩ | hq2
      · cases hxe
      · injection hq2
    subst hpq
    obtain ⟨l2, hl2, -⟩ := hf6
    rw [hfs] at hl2
    have hmem : (⟨rev, w.nextId, env.usize c⟩ : Entry) ∈ st2.uncompressed_cache := by
      rw [hl2]
      exact List.mem_append_right _ (List.mem_singleton.mpr rfl)
    have hge := mem_of_mem_sizeSum hmem
    have hcap := hf8 rfl
    have hlone : st2.uncompressed_cache.length ≤ 1 := by
      rcases hcap with h1 | h2
      · exfalso
        have : st.uncompressed_max_bytes < sizeSum st2.uncompressed_cache := by
          have : env.usize c ≤ sizeSum st2.uncompressed_cache := hge
          omega
        omega
      · exact h2
    have hl2nil : l2 = [] := by
      rcases l2 with _ | ⟨a, l3⟩
      · rfl
      · rw [hl2] at hlone
        simp at hlone
    subst hl2nil
    rw [List.nil_append] at hl2
    refine ⟨hl2, ?_⟩
    rw [hf1, hl2]
    simp only [sizeSum_cons, sizeSum_nil]
    omega
  · rw [if_neg hlen] at h
    simp only [Prod.mk.injEq] at h
    exact absurd h.1 (by simp)

/-- C7 (witness): inserting the 1000-byte tagsfile of revG into the 10-byte
hot sector of st2 keeps exactly the new entry in the hot sector, which then
exceeds its capacity. -/
theorem claim_C7_witness :
    ([Entry.mk revG 1 1000] : List Entry) = [Entry.mk revG 1 (env1.usize 3)]
    ∧ (10 : Nat) < sizeSum [Entry.mk revG 1 1000] :=
  claim_C7_oversized_insert env1 st2 w2 "repo" revG (by decide) (by decide)
    (show env1.create "repo" revG = some 3 from by decide) (by decide)
    (show CTagsCache.get_tagsfile env1 st2 w2 "repo" revG
      = (Except.ok 1,
         { uncompressed_max_bytes := 10
           compressed_max_bytes := 100
           uncompressed_cache := [Entry.mk revG 1 1000]
           compressed_cache := [Entry.mk revA 2 3]
           clearing := false },
         { nextId := 3, files := [(2, ⟨1, true⟩), (1, ⟨3, false⟩)] },
         [Event.acquireLock, Event.createCall "repo" revG, Event.compressCall 0,
          Event.destroyCall 0, Event.releaseLock]) from rfl)

/-- C10 (counterexample): at the very input the claim describes (a cache miss
whose fresh 1000-byte tagsfile exceeds the 10-byte hot capacity, so the
insertion triggers eviction work: the old entry at path 0 is destroyed), the
caller still receives a live handle: the returned path 1 is present in the
world, uncompressed, with the created content, sits in the hot sector, and no
destroy of it appears in the trace.  The new entry is not evicted by its own
insertion, so no already-destroyed handle is returned. -/
theorem claim_C10_counterexample :
    (CTagsCache.get_tagsfile env1 st2 w2 "repo" revG).1 = Except.ok 1
    ∧ Event.destroyCall 0 ∈ (CTagsCache.get_tagsfile env1 st2 w2 "repo" revG).2.2.2
    ∧ (CTagsCache.get_tagsfile env1 st2 w2 "repo" revG).2.2.1.lookup 1
        = some ⟨3, false⟩
    ∧ 1 ∈ pathsOf (CTagsCache.get_tagsfile env1 st2 w2 "repo" revG).2.1.uncompressed_cache
    ∧ Event.destroyCall 1 ∉ (CTagsCache.get_tagsfile env1 st2 w2 "repo" revG).2.2.2 :=
  ⟨rfl, by decide, by decide, by decide, by decide⟩

/-- C10 (amended): a successful cache miss always returns a live handle: the
returned path denotes a live uncompressed file holding the created content,
and the key and path are in the uncompressed sector after the call; the
freshly inserted entry is never evicted by its own insertion. -/
theorem claim_C10_live_handle (env : Env) (st : CTagsCache) (w : World)
    (repo rev : String)
    (hhot : rev ∉ keysOf st.uncompressed_cache)
    (hcold : rev ∉ keysOf st.compressed_cache)
    {c : Nat} (hcre : env.create repo rev = some c)
    (hbh : ∀ e ∈ st.uncompressed_cache, e.path < w.nextId)
    (hbc : ∀ e ∈ st.compressed_cache, e.path < w.nextId)
    {p : Nat} {st2 : CTagsCache} {w2 : World} {tr : List Event}
    (h : CTagsCache.get_tagsfile env st w repo rev = (Except.ok p, st2, w2, tr)) :
    w2.lookup p = some ⟨c, false⟩
    ∧ p ∈ pathsOf st2.uncompressed_cache
    ∧ rev ∈ keysOf st2.uncompressed_cache := by
  rw [CTagsCache.get_tagsfile] at h
  by_cases hlen : rev.length = 40
  · rw [if_pos hlen] at h
    have hu : lruGet rev st.uncompressed_cache = none := lruGet_none_iff.mpr hhot
    have hc2 : lruGet rev st.compressed_cache = none := lruGet_none_iff.mpr hcold
    simp only [hu, hc2] at h
    have hcr : create_tagsfile env w repo rev
        = Except.ok ((w.alloc ⟨c, false⟩).1, w.nextId) := by
      unfold create_tagsfile
      rw [hcre]
      exact rfl
    simp only [hcr] at h
    obtain ⟨hf1, hf2, hf3, hf4, hf5, hf6, hf7, hf8, hf9, hf10, hf11, hf12,
      hf13, hf14, hf15, hf16, hf17, hf18⟩ := finishInsert_facts env h
    have hpq : p = w.nextId := by
      rcases hf7 with ⟨xe, hxe⟩ | hq2
      · cases hxe
      · injection hq2
    subst hpq
    refine ⟨?_, hf17, hf16⟩
    refine finishInsert_keep_q env h ?_ ?_ ?_ ?_
    · rw [World.alloc_fst_nextId]
      omega
    · intro hcon
      rcases mem_pathsOf.mp hcon with ⟨e, he, hepp⟩
      have := hbh e he
      omega
    · intro hcon
      rcases mem_pathsOf.mp hcon with ⟨e, he, hepp⟩
      have := hbc e he
      omega
    · exact World.lookup_alloc_self w _
  · rw [if_neg hlen] at h
    simp only [Prod.mk.injEq] at h
    exact absurd h.1 (by simp)

/-- C10 (witness): the oversized miss on st2 returns path 1, which is live,
uncompressed, holds the created content and is in the hot sector. -/
theorem claim_C10_witness :
    (World.mk 3 [(2, ⟨1, true⟩), (1, ⟨3, false⟩)]).lookup 1 = some ⟨3, false⟩
    ∧ 1 ∈ pathsOf [Entry.mk revG 1 1000]
    ∧ revG ∈ keysOf [Entry.mk revG 1 1000] :=
  claim_C10_live_handle env1 st2 w2 "repo" revG (by decide) (by decide)
    (show env1.create "repo" revG = some 3 from by decide) (by decide) (by decide)
    (show CTagsCache.get_tagsfile env1 st2 w2 "repo" revG
      = (Except.ok 1,
         { uncompressed_max_bytes := 10
           compressed_max_bytes := 100
           uncompressed_cache := [Entry.mk revG 1 1000]
           compressed_cache := [Entry.mk revA 2 3]
           clearing := false },
         { nextId := 3, files := [(2, ⟨1, true⟩), (1, ⟨3, false⟩)] },
         [Event.acquireLock, Event.createCall "repo" revG, Event.compressCall 0,
          Event.destroyCall 0, Event.releaseLock]) from rfl)

/-- listing of what a compression failure during demotion does: the raw codec
error aborts get_tagsfile; the evicted entry has already left the uncompressed
sector and was never added to the compressed sector, and its uncompressed file
is neither destroyed nor tracked any more, as the source has no try/finally
around the demotion, so delete_tagsfile is skipped and the file leaks. -/
theorem demotionFailure_leak (env : Env) (st : CTagsCache) (w : World)
    (repo rev : String) (e : Entry)
    (hcl : st.clearing = false)
    (hlen : rev.length = 40)
    (hhot1 : st.uncompressed_cache = [e])
    (hne : e.rev ≠ rev)
    (hcoldrev : rev ∉ keysOf st.compressed_cache)
    (hcolde : e.rev ∉ keysOf st.compressed_cache)
    (fe : TagsFile) (hfe : w.lookup e.path = some fe)
    (hcf : env.compressFails fe.content = true)
    (c : Nat) (hcre : env.create repo rev = some c)
    (hbig : st.uncompressed_max_bytes < e.size + env.usize c)
    (hep : e.path < w.nextId) :
    ∃ st2 w2 tr, CTagsCache.get_tagsfile env st w repo rev
        = (Except.error Exn.ioError, st2, w2, tr)
      ∧ e.rev ∉ keysOf st2.uncompressed_cache
      ∧ e.rev ∉ keysOf st2.compressed_cache
      ∧ w2.lookup e.path = some fe
      ∧ Event.destroyCall e.path ∉ tr := by
  have hu : lruGet rev st.uncompressed_cache = none := by
    refine lruGet_none_iff.mpr ?_
    rw [hhot1]
    intro hcon
    rcases mem_keysOf.mp hcon with ⟨e2, he2, he2rev⟩
    rcases List.mem_singleton.mp he2 with rfl
    exact hne he2rev
  have hc2 : lruGet rev st.compressed_cache = none := lruGet_none_iff.mpr hcoldrev
  have hcr : create_tagsfile env w repo rev
      = Except.ok ((w.alloc ⟨c, false⟩).1, w.nextId) := by
    unfold create_tagsfile
    rw [hcre]
    exact rfl
  have hfs : fileSize env (w.alloc ⟨c, false⟩).1 w.nextId = env.usize c := by
    simp [fileSize, World.lookup_alloc_self]
  have hfilter : ∀ z : Nat, st.uncompressed_cache.filter
      (fun y => y.rev != (⟨rev, w.nextId, z⟩ : Entry).rev) = [e] := by
    intro z
    rw [hhot1, List.filter_cons, List.filter_nil]
    rw [if_pos (by simp [hne])]
  have hcmp : compress_tagsfile env (w.alloc ⟨c, false⟩).1 e.path
      = Except.error Exn.ioError := by
    unfold compress_tagsfile
    rw [World.lookup_alloc_ne w _ (Nat.ne_of_lt hep), hfe]
    simp [hcf]
  have hcb : CTagsCache.clearUncompressedEntry env
      (st, (w.alloc ⟨c, false⟩).1, [Event.acquireLock, Event.createCall repo rev]) e
      = ((st, (w.alloc ⟨c, false⟩).1,
          [Event.acquireLock, Event.createCall repo rev, Event.compressCall e.path]),
         some Exn.ioError) := by
    simp only [CTagsCache.clearUncompressedEntry, hcl, Bool.false_eq_true, if_false, hcmp]
    exact rfl
  have hins : lruInsert st.uncompressed_max_bytes (CTagsCache.clearUncompressedEntry env)
      (⟨rev, w.nextId, fileSize env (w.alloc ⟨c, false⟩).1 w.nextId⟩ : Entry)
      st.uncompressed_cache
      (st, (w.alloc ⟨c, false⟩).1, [Event.acquireLock, Event.createCall repo rev])
      = ([⟨rev, w.nextId, fileSize env (w.alloc ⟨c, false⟩).1 w.nextId⟩],
         (st, (w.alloc ⟨c, false⟩).1,
          [Event.acquireLock, Event.createCall repo rev, Event.compressCall e.path]),
         some Exn.ioError) := by
    rw [lruInsert, hfilter]
    simp only [lruEvict]
    rw [if_pos ?_]
    · rw [hcb]
      exact rfl
    · constructor
      · simp only [List.append_eq, List.nil_append, sizeSum_cons, sizeSum_nil, hfs]
        omega
      · simp
  refine ⟨{ st with uncompressed_cache
        := [⟨rev, w.nextId, fileSize env (w.alloc ⟨c, false⟩).1 w.nextId⟩] },
      (w.alloc ⟨c, false⟩).1,
      [Event.acquireLock, Event.createCall repo rev, Event.compressCall e.path,
       Event.releaseLock], ?_, ?_, ?_, ?_, ?_⟩
  · rw [CTagsCache.get_tagsfile, if_pos hlen]
    simp only [hu, hc2, hcr]
    rw [CTagsCache.finishInsert, hins]
    exact rfl
  · simp only [keysOf, List.map_cons, List.map_nil, List.mem_singleton]
    exact hne
  · exact hcolde
  · rw [World.lookup_alloc_ne w _ (Nat.ne_of_lt hep)]
    exact hfe
  · simp

/-- listing of what a decompression failure during promotion does: the raw
codec error aborts get_tagsfile before the compressed entry is removed, so the
key stays in the compressed tier (the lookup merely reorders the sector), the
uncompressed sector and the world are untouched, and the trace holds exactly
the lock bracket around the single decompression attempt, with no destroy. -/
theorem promotionFailure_stays_cold (env : Env) (st : CTagsCache) (w : World)
    (repo rev : String)
    (hlen : rev.length = 40)
    (hhot : rev ∉ keysOf st.uncompressed_cache)
    (pp : Nat) (ces : List Entry)
    (hc : lruGet rev st.compressed_cache = some (pp, ces))
    (f : TagsFile) (hf : w.lookup pp = some f)
    (hfc : f.compressed = true)
    (hdf : env.decompressFails f.content = true) :
    CTagsCache.get_tagsfile env st w repo rev
      = (Except.error Exn.ioError, { st with compressed_cache := ces }, w,
         [Event.acquireLock, Event.decompressCall pp, Event.releaseLock])
    ∧ rev ∈ keysOf ces := by
  have hu : lruGet rev st.uncompressed_cache = none := lruGet_none_iff.mpr hhot
  have hun : uncompress_tagsfile env w pp = Except.error Exn.ioError := by
    unfold uncompress_tagsfile
    rw [hf]
    simp [hfc, hdf]
  constructor
  · rw [CTagsCache.get_tagsfile, if_pos hlen]
    simp only [hu, hc, hun]
  · obtain ⟨e, hfind, he, herev, hep, hces⟩ := lruGet_some_spec hc
    rw [hces, keysOf_append]
    refine List.mem_append_right _ ?_
    simp only [keysOf, List.map_cons, List.map_nil, List.mem_singleton]
    exact herev.symm

/-- C8 (amended): a codec failure during demotion or promotion aborts the
enclosing get_tagsfile call with the raw codec error (no CacheInternalError
wrapper exists in the code).  When COMPRESSION fails during a demotion, the
evicted entry has already left the uncompressed sector and was never added to
the compressed sector, so it is in neither tier, and its uncompressed file is
neither destroyed nor retried: it leaks, since the source has no try/finally
around the demotion.  When DECOMPRESSION fails during a promotion, the key is
left in its pre-transition tier: it stays in the compressed sector (merely
reordered), the uncompressed sector and the world are unchanged, and nothing
is destroyed or leaked. -/
theorem claim_C8_codec_failure :
    (∀ (env : Env) (st : CTagsCache) (w : World) (repo rev : String) (e : Entry),
      st.clearing = false → rev.length = 40 → st.uncompressed_cache = [e] →
      e.rev ≠ rev → rev ∉ keysOf st.compressed_cache →
      e.rev ∉ keysOf st.compressed_cache →
      ∀ (fe : TagsFile), w.lookup e.path = some fe →
      env.compressFails fe.content = true →
      ∀ (c : Nat), env.create repo rev = some c →
      st.uncompressed_max_bytes < e.size + env.usize c → e.path < w.nextId →
      ∃ st2 w2 tr, CTagsCache.get_tagsfile env st w repo rev
          = (Except.error Exn.ioError, st2, w2, tr)
        ∧ e.rev ∉ keysOf st2.uncompressed_cache
        ∧ e.rev ∉ keysOf st2.compressed_cache
        ∧ w2.lookup e.path = some fe
        ∧ Event.destroyCall e.path ∉ tr)
    ∧ (∀ (env : Env) (st : CTagsCache) (w : World) (repo rev : String),
      rev.length = 40 → rev ∉ keysOf st.uncompressed_cache →
      ∀ (pp : Nat) (ces : List Entry), lruGet rev st.compressed_cache = some (pp, ces) →
      ∀ (f : TagsFile), w.lookup pp = some f → f.compressed = true →
      env.decompressFails f.content = true →
      CTagsCache.get_tagsfile env st w repo rev
        = (Except.error Exn.ioError, { st with compressed_cache := ces }, w,
           [Event.acquireLock, Event.decompressCall pp, Event.releaseLock])
      ∧ rev ∈ keysOf ces) :=
  ⟨demotionFailure_leak, promotionFailure_stays_cold⟩

/-- C8 (witness): with env2 (compression of content 1 fails), the miss on revB
evicts revA, the demotion fails with the raw codec error, revA is left in
neither sector, and its uncompressed file at path 0 is still on disk with no
destroy event: it leaked.  With env4 (decompression of content 1 fails), the
promotion of revA from the cold sector of st1 fails and revA stays in the
compressed sector with the world untouched and nothing destroyed. -/
theorem claim_C8_witness :
    (∃ st3 w3 tr, CTagsCache.get_tagsfile env2 st2 w2 "repo" revB
        = (Except.error Exn.ioError, st3, w3, tr)
      ∧ (⟨revA, 0, 6⟩ : Entry).rev ∉ keysOf st3.uncompressed_cache
      ∧ (⟨revA, 0, 6⟩ : Entry).rev ∉ keysOf st3.compressed_cache
      ∧ w3.lookup (⟨revA, 0, 6⟩ : Entry).path = some ⟨1, false⟩
      ∧ Event.destroyCall (⟨revA, 0, 6⟩ : Entry).path ∉ tr)
    ∧ (CTagsCache.get_tagsfile env4 st1 w1 "repo" revA
        = (Except.error Exn.ioError,
           { st1 with compressed_cache := [Entry.mk revA 0 3] }, w1,
           [Event.acquireLock, Event.decompressCall 0, Event.releaseLock])
      ∧ revA ∈ keysOf [Entry.mk revA 0 3]) :=
  ⟨claim_C8_codec_failure.1 env2 st2 w2 "repo" revB ⟨revA, 0, 6⟩ rfl (by decide) rfl
    (by decide) (by decide) (by decide) ⟨1, false⟩ rfl rfl 2
    (show env2.create "repo" revB = some 2 from by decide) (by decide) (by decide),
   claim_C8_codec_failure.2 env4 st1 w1 "repo" revA (by decide) (by decide) 0
    [Entry.mk revA 0 3]
    (show lruGet revA st1.compressed_cache = some (0, [Entry.mk revA 0 3]) from rfl)
    ⟨1, true⟩ rfl rfl rfl⟩

/-- C8 (counterexample): at a concrete failed demotion (env2 makes compressing
content 1 fail; the miss on revB evicts revA from the hot sector of st2), the
call errors, yet revA is NOT left in its pre-transition tier: it is in neither
the uncompressed nor the compressed sector, and the evicted uncompressed file
at path 0 is NOT destroyed (it is still live and no destroy event occurs), so
it leaks, contradicting both the pre-transition-tier and the
never-leaked parts of the claim. -/
theorem claim_C8_counterexample :
    (CTagsCache.get_tagsfile env2 st2 w2 "repo" revB).1 = Except.error Exn.ioError
    ∧ revA ∉ keysOf (CTagsCache.get_tagsfile env2 st2 w2 "repo" revB).2.1.uncompressed_cache
    ∧ revA ∉ keysOf (CTagsCache.get_tagsfile env2 st2 w2 "repo" revB).2.1.compressed_cache
    ∧ (CTagsCache.get_tagsfile env2 st2 w2 "repo" revB).2.2.1.lookup 0 = some ⟨1, false⟩
    ∧ Event.destroyCall 0 ∉ (CTagsCache.get_tagsfile env2 st2 w2 "repo" revB).2.2.2 :=
  ⟨rfl, by decide, by decide, by decide, by decide⟩
